import Mathlib

/-!
Verification of the GFM rendering core (`deer/gfm`): pipeline assembly and
caching, sanitization schema building, URL resolution, code-block wrapping,
line splitting, inline unwrapping, and TOC/frontmatter extraction.

Definitions are shallow embeddings of the TypeScript source in `src/` (chiefly
the main module, plus `parse.ts`).  External collaborators that the source
consumes as black boxes (the WHATWG `URL` parser, the sanitizer engine, the
HTML serializer, the YAML parser, the gemoji table, the slug generator) are
modelled from the spec's description of their narrow contracts; each such
definition carries a doc comment starting with `Modelled from the spec:`.

Strings are represented as `List Char` (`Str`) so that all string operations
are ordinary structural recursion and compute inside the kernel.
-/

namespace Gfm

/-- Characters lists stand in for JS strings throughout the embedding. -/
abbrev Str := List Char

/-- Shorthand turning a Lean string literal into the `Str` representation. -/
def str (s : String) : Str := s.data

/-- Split a character list at every occurrence of `sep`, JS `String.split`
style: the result is always nonempty, and separators at the ends contribute
empty pieces. -/
def splitCh (sep : Char) : Str → List Str
  | [] => [[]]
  | c :: cs =>
    if c = sep then [] :: splitCh sep cs
    else
      match splitCh sep cs with
      | [] => [[c]]
      | l :: ls => (c :: l) :: ls

/-- Join pieces with a separator character, the inverse of `splitCh`. -/
def joinCh (sep : Char) : List Str → Str
  | [] => []
  | [l] => l
  | l :: ls => l ++ sep :: joinCh sep ls

/-!  ### URL model

The source calls the host's WHATWG `URL` constructor.  The spec only requires
"well-formed absolute URL" behaviour, so the constructor is modelled by a
small parser for `scheme://host/path` URLs.
-/

/-- Scan for the first `://`, returning the text before it and after it. -/
def splitScheme : Str → Option (Str × Str)
  | [] => none
  | ':' :: '/' :: '/' :: rest => some ([], rest)
  | c :: cs => (splitScheme cs).map (fun p => (c :: p.1, p.2))

/-- Modelled from the spec: the record produced by the external WHATWG `URL`
parser for an absolute URL, as far as this module consumes it (scheme, host,
path; `origin` and `href` are derived). -/
structure UrlRec where
  scheme : Str
  host : Str
  path : Str
deriving DecidableEq

/-- ASCII letter test used for URL schemes. -/
def isAsciiAlpha (c : Char) : Bool :=
  ('a' ≤ c && c ≤ 'z') || ('A' ≤ c && c ≤ 'Z')

/-- Modelled from the spec: the external `new URL(s)` constructor.  A
well-formed absolute URL is `scheme://host/path` with a nonempty alphabetic
scheme and a nonempty host; anything else makes the constructor throw, which
the model renders as `none`. -/
def parseUrl (s : Str) : Option UrlRec :=
  match splitScheme s with
  | none => none
  | some (sch, rest) =>
    let host := rest.takeWhile (fun c => c ≠ '/')
    let path := rest.dropWhile (fun c => c ≠ '/')
    if sch ≠ [] ∧ sch.all isAsciiAlpha ∧ host ≠ [] then
      some { scheme := sch, host := host, path := path }
    else
      none

/-- The origin of a parsed URL: `scheme://host`, no path. -/
def originOf (r : UrlRec) : Str := r.scheme ++ str "://" ++ r.host

/-- Remove `.` and `..` path segments, RFC 3986 style, using an output stack. -/
def normSegsAux : List Str → List Str → List Str
  | out, [] => out.reverse
  | out, s :: rest =>
    if s = str "." then normSegsAux out rest
    else if s = str ".." then normSegsAux out.tail rest
    else normSegsAux (s :: out) rest

/-- Normalize an absolute path (leading `/`): split into segments, drop dot
segments, and rebuild.  An empty path serializes as `/`. -/
def normPath (p : Str) : Str :=
  match p with
  | [] => str "/"
  | _ :: _ =>
    match splitCh '/' p with
    | [] => str "/"
    | _ :: segs => '/' :: joinCh '/' (normSegsAux [] segs)

/-- The serialized form (`href`) of a parsed URL. -/
def hrefOf (r : UrlRec) : Str := originOf r ++ normPath r.path

/-- The directory part of a path: everything up to and including the last
`/`, or `/` when there is none (WHATWG path merging). -/
def dirOf (p : Str) : Str :=
  let d := (p.reverse.dropWhile (fun c => c ≠ '/')).reverse
  if d = [] then str "/" else d

/-- Modelled from the spec: the external `new URL(url, base)` resolution.
A url carrying its own scheme is parsed absolutely; otherwise the base must
parse, a root-relative url replaces the base path, and any other url is merged
onto the base path's directory.  Failure (a throw in the source) is `none`. -/
def urlResolve (url : Str) (base : Str) : Option Str :=
  match splitScheme url with
  | some _ => (parseUrl url).map hrefOf
  | none =>
    match parseUrl base with
    | none => none
    | some b =>
      let p := if url.take 1 = [ '/' ] then url else dirOf b.path ++ url
      some (hrefOf { b with path := p })

/-- Does the url start with one of the prefixes the source leaves untouched
(absolute, protocol-relative, fragment-only, data/mailto/tel)?  This mirrors
the guard at the top of the source `resolveUrl`. -/
def untouchedUrl (url : Str) : Bool :=
  url.isEmpty || (str "http://").isPrefixOf url || (str "https://").isPrefixOf url ||
  (str "//").isPrefixOf url || (str "#").isPrefixOf url || (str "data:").isPrefixOf url ||
  (str "mailto:").isPrefixOf url || (str "tel:").isPrefixOf url

/-- The base url normalized to end with `/`, as in the source. -/
def normBase (baseUrl : Str) : Str :=
  if [ '/' ].isSuffixOf baseUrl then baseUrl else baseUrl ++ [ '/' ]

/-- `resolveUrl` from the source: skip already-absolute urls, normalize the
base to end with `/`, resolve root-relative urls against the base origin only,
resolve the rest against the full base, and fail open (return the input) when
any URL construction fails. -/
def resolveUrl (url : Str) (baseUrl : Str) : Str :=
  if untouchedUrl url then url
  else
    let base := normBase baseUrl
    if [ '/' ].isPrefixOf url then
      match parseUrl base with
      | some b =>
        match urlResolve url (originOf b) with
        | some href => href
        | none => url
      | none => url
    else
      match urlResolve url base with
      | some href => href
      | none => url

/-!  ### Plugin and configuration model -/

/-- An external plugin function: its JS `name` (used by the cache key) and an
opaque identity distinguishing different functions that share a name. -/
structure PluginRef where
  name : Option Str
  id : Nat
deriving DecidableEq

/-- `PluginSpec` from the source: a bare plugin or a `[plugin, ...settings]`
tuple; settings are opaque to the pipeline assembler and modelled by an id. -/
inductive PluginSpec where
  | bare (ref : PluginRef)
  | withSettings (ref : PluginRef) (settingsId : Nat)
deriving DecidableEq

/-- `MathPlugins` from the source: a remark/rehype plugin pair plus declared
sanitization additions. -/
structure MathPlugins where
  remarkPlugin : PluginSpec
  rehypePlugin : PluginSpec
  spanClassPrefixes : Option (List Str) := none
  spanAttributes : Option (List Str) := none
  tagNames : Option (List Str) := none
  tagAttributes : Option (List (Str × List Str)) := none
deriving DecidableEq

/-- `RenderOptions` from the source.  Absent optional fields are `none`;
JS truthiness of a boolean flag is `= some true`. -/
structure RenderOptions where
  baseUrl : Option Str := none
  highlighter : Option PluginSpec := none
  math : Option MathPlugins := none
  allowIframes : Option Bool := none
  disableHtmlSanitization : Option Bool := none
  allowEmoji : Option Bool := none
  lineNumbers : Option Bool := none
  remarkPlugins : Option (List PluginSpec) := none
  rehypePlugins : Option (List PluginSpec) := none
  inline : Option Bool := none
deriving DecidableEq

/-!  ### HTML tree model (hast) -/

/-- A hast property value: string, number, boolean, or list of strings
(class lists). -/
inductive PropVal where
  | s (v : Str)
  | n (v : Nat)
  | b (v : Bool)
  | strs (v : List Str)
deriving DecidableEq

mutual
/-- A hast node: text or element (tag, properties, children). -/
inductive Hast where
  | text (value : Str)
  | element (tag : Str) (props : List (Str × PropVal)) (children : HastL)
deriving DecidableEq
/-- A list of hast nodes (spelled out so that structural recursion and
derived decidable equality work on 4.14). -/
inductive HastL where
  | nil
  | cons (h : Hast) (t : HastL)
deriving DecidableEq
end

/-- Append two hast child lists. -/
def HastL.append : HastL → HastL → HastL
  | .nil, t => t
  | .cons h l, t => .cons h (HastL.append l t)

instance : Append HastL := ⟨HastL.append⟩

/-- Convert a hast child list to an ordinary list. -/
def HastL.toList : HastL → List Hast
  | .nil => []
  | .cons h t => h :: HastL.toList t

/-- Build a hast child list from an ordinary list. -/
def HastL.ofList : List Hast → HastL
  | [] => .nil
  | h :: t => .cons h (HastL.ofList t)

mutual
/-- `hast-util-to-string`: the flattened text content of a node. -/
def hastText : Hast → Str
  | .text v => v
  | .element _ _ cs => hastTextL cs
/-- Flattened text content of a child list. -/
def hastTextL : HastL → Str
  | .nil => []
  | .cons h t => hastText h ++ hastTextL t
end

/-- Association-list lookup keyed by `Str` (JS object property access). -/
def getA {α : Type} (m : List (Str × α)) (k : Str) : Option α :=
  (m.find? (fun p => decide (p.1 = k))).map (fun p => p.2)

/-- Association-list assignment: replace the binding when the key is present,
append it otherwise (JS object property assignment preserves key order). -/
def setA {α : Type} (m : List (Str × α)) (k : Str) (v : α) : List (Str × α) :=
  if (m.find? (fun p => decide (p.1 = k))).isSome then
    m.map (fun p => if p.1 = k then (k, v) else p)
  else
    m ++ [(k, v)]

/-!  ### Sanitization schema -/

/-- A pattern an allowed class value may be required to match: an exact
string, a regex `^p` (any string with prefix `p`), or a regex `^p.` (prefix
`p` followed by at least one character). -/
inductive ClassPat where
  | exact (v : Str)
  | pfx (p : Str)
  | pfxOne (p : Str)
deriving DecidableEq

/-- An allowed attribute: any value, or (for class-like list values) only
items matching one of the given patterns. -/
inductive AttrRule where
  | any (name : Str)
  | withPats (name : Str) (pats : List ClassPat)
deriving DecidableEq

/-- The attribute name an `AttrRule` is about. -/
def AttrRule.name : AttrRule → Str
  | .any n => n
  | .withPats n _ => n

/-- The sanitization schema consumed by the external sanitizer: allowed tag
names, per-tag attribute rules, per-attribute allowed URL protocols, the id
clobber setting, and the list of tags stripped with their entire subtree. -/
structure Schema where
  tagNames : List Str
  attributes : List (Str × List AttrRule)
  protocols : List (Str × List Str)
  clobberPfx : Str
  strip : List Str
deriving DecidableEq

/-- Append attribute rules for a tag, `schema.attributes[tag] =
[...(schema.attributes[tag] ?? []), ...extra]` in the source. -/
def appendRules (m : List (Str × List AttrRule)) (k : Str) (extra : List AttrRule) :
    List (Str × List AttrRule) :=
  setA m k ((getA m k).getD [] ++ extra)

/-- Modelled from the spec: the external sanitizer's default GitHub-style
schema.  Only the parts this module's reasoning touches are included: a
baseline tag allow-list with no script/style and no event-handler attributes,
`href`/`src` attributes guarded by protocol allow-lists that exclude
`javascript:` and `vbscript:`, a clobber prefix, and the default strip list
(`script` subtrees are removed entirely). -/
def defaultSchema : Schema where
  tagNames :=
    [ str "a", str "b", str "blockquote", str "br", str "code", str "dd",
      str "del", str "details", str "div", str "dl", str "dt", str "em",
      str "h1", str "h2", str "h3", str "h4", str "h5", str "h6", str "hr",
      str "i", str "img", str "input", str "ins", str "kbd", str "li",
      str "ol", str "p", str "pre", str "q", str "rp", str "rt", str "ruby",
      str "s", str "samp", str "section", str "source", str "span",
      str "strike", str "strong", str "sub", str "summary", str "sup",
      str "table", str "tbody", str "td", str "tfoot", str "th", str "thead",
      str "tr", str "tt", str "ul", str "var" ]
  attributes :=
    [ (str "a", [ .any (str "href") ]),
      (str "img", [ .any (str "src"), .any (str "alt") ]),
      (str "blockquote", [ .any (str "cite") ]),
      (str "source", [ .any (str "src") ]) ]
  protocols :=
    [ (str "href", [ str "http", str "https", str "mailto", str "tel" ]),
      (str "src", [ str "http", str "https" ]),
      (str "cite", [ str "http", str "https" ]) ]
  clobberPfx := str "user-content-"
  strip := [ str "script" ]

/-- `buildSchema` from the source: clone the default schema, clear the
clobber prefix, and widen the allow-list with heading ids, anchor/link
attributes, highlighter class patterns (extended by math class prefixes and
attributes), structural div/p classes, SVG icon tags, task-list checkboxes,
optional iframes, and the math bundle's declared tags and attributes. -/
def buildSchema (opts : RenderOptions) : Schema :=
  let sc0 := { defaultSchema with clobberPfx := [] }
  let attrs := [ str "h1", str "h2", str "h3", str "h4", str "h5", str "h6" ].foldl
    (fun a h => appendRules a h
      [ .any (str "id"), .withPats (str "className") [ .exact (str "sr-only") ] ])
    sc0.attributes
  let attrs := appendRules attrs (str "a")
    [ .any (str "id"), .any (str "ariaHidden"), .any (str "tabIndex") ]
  let attrs := appendRules attrs (str "code")
    [ .withPats (str "className") [ .pfxOne (str "language-") ] ]
  let spanClassPats :=
    [ str "pl-", str "hljs-", str "code-lang", str "line" ] ++
      (match opts.math with
       | some m => m.spanClassPrefixes.getD []
       | none => [])
  let attrs := appendRules attrs (str "span")
    [ .withPats (str "className") (spanClassPats.map ClassPat.pfx) ]
  let attrs :=
    match opts.math with
    | some m => appendRules attrs (str "span") ((m.spanAttributes.getD []).map AttrRule.any)
    | none => attrs
  let attrs := appendRules attrs (str "pre")
    [ .any (str "className"), .any (str "dataLineNumbers") ]
  let attrs := appendRules attrs (str "div")
    [ .withPats (str "className")
        [ .pfx (str "highlight"), .pfx (str "code-header"), .pfx (str "markdown-") ] ]
  let attrs := appendRules attrs (str "p")
    [ .withPats (str "className") [ .exact (str "markdown-alert-title") ] ]
  let tags := sc0.tagNames ++ [ str "svg", str "path" ]
  let attrs := setA attrs (str "svg")
    [ .any (str "viewBox"), .any (str "width"), .any (str "height"),
      .any (str "ariaHidden"), .any (str "fill"), .any (str "className") ]
  let attrs := setA attrs (str "path") [ .any (str "fillRule"), .any (str "d") ]
  let tags := if (str "input") ∈ tags then tags else tags ++ [ str "input" ]
  let attrs := setA attrs (str "input")
    [ .any (str "type"), .any (str "checked"), .any (str "disabled") ]
  let tags := if opts.allowIframes = some true then tags ++ [ str "iframe" ] else tags
  let attrs :=
    if opts.allowIframes = some true then
      setA attrs (str "iframe")
        [ .any (str "src"), .any (str "width"), .any (str "height"),
          .any (str "frameBorder") ]
    else attrs
  let tags :=
    match opts.math with
    | some m => tags ++ m.tagNames.getD []
    | none => tags
  let attrs :=
    match opts.math with
    | some m =>
      (m.tagAttributes.getD []).foldl
        (fun a p => appendRules a p.1 (p.2.map AttrRule.any)) attrs
    | none => attrs
  { sc0 with tagNames := tags, attributes := attrs }

/-!  ### Sanitizer model -/

/-- The URL scheme of an attribute value: the characters before the first
`:`, provided no `/`, `?` or `#` occurs first; `none` when the value is
relative. -/
def schemeOf : Str → Option Str
  | [] => none
  | c :: cs =>
    if c = ':' then some []
    else if c = '/' ∨ c = '?' ∨ c = '#' then none
    else (schemeOf cs).map (fun sc => c :: sc)

/-- Is a value acceptable for an attribute guarded by protocol list `ps`? -/
def protocolOk (v : Str) (ps : List Str) : Bool :=
  match schemeOf v with
  | none => true
  | some sc => ps.contains sc

/-- Does a class item match one of the allowed class patterns? -/
def classOk (pats : List ClassPat) (cls : Str) : Bool :=
  pats.any (fun pat =>
    match pat with
    | .exact v => cls == v
    | .pfx p => p.isPrefixOf cls
    | .pfxOne p => p.isPrefixOf cls && decide (p.length < cls.length))

/-- The first rule for an attribute name in a rule list. -/
def ruleFor (rules : List AttrRule) (name : Str) : Option AttrRule :=
  rules.find? (fun r => decide (r.name = name))

/-- Modelled from the spec: how the external sanitizer filters one property.
A property with no rule is dropped; an `any` rule keeps it subject to the
protocol allow-list for that attribute name; a pattern rule keeps only the
class items matching one of the patterns. -/
def filterProp (sc : Schema) (tag : Str) (p : Str × PropVal) : Option (Str × PropVal) :=
  match ruleFor ((getA sc.attributes tag).getD []) p.1 with
  | none => none
  | some (.any _) =>
    match getA sc.protocols p.1 with
    | none => some p
    | some ps =>
      match p.2 with
      | .s v => if protocolOk v ps then some p else none
      | .strs items => if items.all (fun v => protocolOk v ps) then some p else none
      | _ => some p
  | some (.withPats _ pats) =>
    match p.2 with
    | .strs items => some (p.1, .strs (items.filter (classOk pats)))
    | _ => none

mutual
/-- Modelled from the spec: the external sanitizer.  Allowed elements are
kept with filtered properties and sanitized children; elements on the strip
list are removed with their entire subtree; other disallowed elements are
replaced by their sanitized children; text is kept. -/
def sanitizeNode (sc : Schema) : Hast → HastL
  | .text v => .cons (.text v) .nil
  | .element tag props cs =>
    let cs' := sanitizeL sc cs
    if tag ∈ sc.tagNames then
      .cons (.element tag (props.filterMap (filterProp sc tag)) cs') .nil
    else if tag ∈ sc.strip then .nil
    else cs'
/-- Sanitize every node of a child list. -/
def sanitizeL (sc : Schema) : HastL → HastL
  | .nil => .nil
  | .cons h t => HastL.append (sanitizeNode sc h) (sanitizeL sc t)
end

/-!  ### HTML serializer model -/

/-- Modelled from the spec: entity escaping performed by the external
serializer on text and attribute values (`&`, `<`, `>`, `"`). -/
def escapeChar (c : Char) : Str :=
  if c = '&' then str "&amp;"
  else if c = '<' then str "&lt;"
  else if c = '>' then str "&gt;"
  else if c = '"' then str "&quot;"
  else [c]

/-- Escape a whole string. -/
def escapeHtml : Str → Str
  | [] => []
  | c :: cs => escapeChar c ++ escapeHtml cs

/-- The string form of a property value (class lists join with spaces). -/
def propValStr : PropVal → Str
  | .s v => v
  | .n v => (Nat.repr v).data
  | .b v => if v then str "true" else str "false"
  | .strs v => joinCh ' ' v

/-- Serialize a property list as ` name="escaped value"` pieces. -/
def serializeProps : List (Str × PropVal) → Str
  | [] => []
  | p :: ps => ' ' :: p.1 ++ '=' :: '"' :: escapeHtml (propValStr p.2) ++ '"' :: serializeProps ps

mutual
/-- Modelled from the spec: the external HTML serializer: tags with escaped
attribute values, escaped text, explicit close tags. -/
def serializeNode : Hast → Str
  | .text v => escapeHtml v
  | .element tag props cs =>
    '<' :: (tag ++ serializeProps props ++ '>' ::
      (serializeL cs ++ '<' :: '/' :: (tag ++ [ '>' ])))
/-- Serialize a child list. -/
def serializeL : HastL → Str
  | .nil => []
  | .cons h t => serializeNode h ++ serializeL t
end

/-- The error thrown by the source for a malformed configured base URL. -/
inductive RenderErr where
  | invalidBaseUrl (b : Str)
deriving DecidableEq

/-- `validateBaseUrl` from the source: absent base URLs pass, present ones
must parse with the URL constructor, otherwise an error is thrown. -/
def validateBaseUrl : Option Str → Except RenderErr Unit
  | none => .ok ()
  | some b =>
    match parseUrl b with
    | some _ => .ok ()
    | none => .error (.invalidBaseUrl b)

/-!  ### `rehypeResolveUrls` -/

/-- Rewrite one property per `rehypeResolveUrls`: `href` on `a`, `src` on
`img`/`video`/`audio`/`source`, string values only. -/
def resolveProp (b : Str) (tag : Str) (p : Str × PropVal) : Str × PropVal :=
  match p.2 with
  | .s v =>
    if (tag = str "a" ∧ p.1 = str "href") ∨
        ((tag = str "img" ∨ tag = str "video" ∨ tag = str "audio" ∨ tag = str "source") ∧
          p.1 = str "src") then
      (p.1, .s (resolveUrl v b))
    else p
  | _ => p

mutual
/-- `rehypeResolveUrls` from the source on one node: visit every element and
resolve its link/media URL properties against the base. -/
def resolveNode (b : Str) : Hast → Hast
  | .text v => .text v
  | .element tag props cs => .element tag (props.map (resolveProp b tag)) (resolveL b cs)
/-- `rehypeResolveUrls` on a child list. -/
def resolveL (b : Str) : HastL → HastL
  | .nil => .nil
  | .cons h t => .cons (resolveNode b h) (resolveL b t)
end

/-!  ### `rehypeCodeBlocks` -/

/-- The first `code` element among a node list, as `node.children.find`. -/
def findCode : HastL → Option Hast
  | .nil => none
  | .cons h t =>
    match h with
    | .element tag _ _ => if tag = str "code" then some h else findCode t
    | _ => findCode t

/-- The `language-*` suffix of the first matching class of a code element:
`langClass?.slice("language-".length)` in the source (possibly empty). -/
def languageOf : Hast → Option Str
  | .element _ props _ =>
    match getA props (str "className") with
    | some (.strs l) =>
      match l.find? (fun c => (str "language-").isPrefixOf c) with
      | some lc => some (lc.drop 9)
      | none => none
    | _ => none
  | _ => none

/-- The `div.code-header > span.code-lang` header for a language name. -/
def codeHeader (lang : Str) : Hast :=
  .element (str "div") [ (str "className", .strs [ str "code-header" ]) ]
    (.cons
      (.element (str "span") [ (str "className", .strs [ str "code-lang" ]) ]
        (.cons (.text lang) .nil))
      .nil)

/-- Wrap a `pre` (with its found `code` child) in `div.highlight`, inserting
the language header when the language is present and non-empty (JS
truthiness). -/
def wrapPre (pre : Hast) (code : Hast) : Hast :=
  let kids : HastL :=
    match languageOf code with
    | some lang =>
      if lang = [] then .cons pre .nil
      else .cons (codeHeader lang) (.cons pre .nil)
    | none => .cons pre .nil
  .element (str "div") [ (str "className", .strs [ str "highlight" ]) ] kids

mutual
/-- `rehypeCodeBlocks` from the source on one node: a `pre` with a `code`
child is replaced by its wrapper (and, per `SKIP`, not descended into);
everything else is traversed. -/
def cbNode : Hast → Hast
  | .text v => .text v
  | .element tag props cs =>
    if tag = str "pre" then
      match findCode cs with
      | some code => wrapPre (.element tag props cs) code
      | none => .element tag props (cbL cs)
    else .element tag props (cbL cs)
/-- `rehypeCodeBlocks` on a child list. -/
def cbL : HastL → HastL
  | .nil => .nil
  | .cons h t => .cons (cbNode h) (cbL t)
end

/-!  ### `rehypeLineNumbers` -/

/-- A split part becomes a node only when non-empty (`if (parts[i])`). -/
def optPart (mk : Str → Hast) (p : Str) : List Hast :=
  if p = [] then [] else [ mk p ]

/-- Fold the parts of one newline-split value into the line accumulator
(`done` lines plus the current line): each part after the first opens a new
line. -/
def consumeParts (mk : Str → Hast) :
    List (List Hast) × List Hast → List Str → List (List Hast) × List Hast
  | st, [] => st
  | (done, cur), [ p ] => (done, cur ++ optPart mk p)
  | (done, cur), p :: q :: ps =>
    consumeParts mk (done ++ [ cur ++ optPart mk p ], []) (q :: ps)

/-- One step of the line-splitting loop of `rehypeLineNumbers`: text nodes
split at newlines; elements whose text contains a newline are split into
per-segment clones carrying the original tag and properties; other elements
stay on the current line. -/
def splitStep (st : List (List Hast) × List Hast) (child : Hast) :
    List (List Hast) × List Hast :=
  match child with
  | .text v => consumeParts (fun p => .text p) st (splitCh '\n' v)
  | .element tag props cs =>
    let t := hastText (.element tag props cs)
    if t.contains '\n' then
      consumeParts (fun p => .element tag props (.cons (.text p) .nil)) st (splitCh '\n' t)
    else (st.1, st.2 ++ [ child ])

/-- The lines of a code element's children: fold the children, then drop the
trailing empty line when there is more than one line. -/
def splitLines (cs : List Hast) : List (List Hast) :=
  let st := cs.foldl splitStep ([], [])
  if st.1 ≠ [] ∧ st.2 = [] then st.1 else st.1 ++ [ st.2 ]

/-- Wrap one line in `span.line`, appending the trailing newline text node
(an empty line holds just the newline). -/
def wrapLine (l : List Hast) : Hast :=
  .element (str "span") [ (str "className", .strs [ str "line" ]) ]
    (HastL.ofList (if l.length > 0 then l ++ [ .text [ '\n' ] ] else [ .text [ '\n' ] ]))

/-- Rewrite a `code` element's children into wrapped lines. -/
def lnCode : Hast → Hast
  | .element tag props cs =>
    .element tag props (HastL.ofList ((splitLines cs.toList).map wrapLine))
  | h => h

/-- Replace the first `code` element of a child list by its line-wrapped
form (the source mutates the found child in place). -/
def mapFirstCode : HastL → HastL
  | .nil => .nil
  | .cons h t =>
    match h with
    | .element tag _ _ =>
      if tag = str "code" then .cons (lnCode h) t else .cons h (mapFirstCode t)
    | _ => .cons h (mapFirstCode t)

mutual
/-- `rehypeLineNumbers` from the source on one node: a `pre` with a `code`
child gets its code lines wrapped and a `dataLineNumbers` marker property,
and is not descended into further (`SKIP`); everything else is traversed. -/
def lnNode : Hast → Hast
  | .text v => .text v
  | .element tag props cs =>
    if tag = str "pre" then
      match findCode cs with
      | some _ =>
        .element tag (setA props (str "dataLineNumbers") (.s [])) (mapFirstCode cs)
      | none => .element tag props (lnL cs)
    else .element tag props (lnL cs)
/-- `rehypeLineNumbers` on a child list. -/
def lnL : HastL → HastL
  | .nil => .nil
  | .cons h t => .cons (lnNode h) (lnL t)
end

/-!  ### `rehypeUnwrapParagraphs` -/

mutual
/-- `rehypeUnwrapParagraphs` from the source on one node: a `p` element is
replaced by its (recursively unwrapped, since the visitor revisits spliced
children) child list; other elements keep their tag and properties. -/
def unwrapNode : Hast → HastL
  | .text v => .cons (.text v) .nil
  | .element tag props cs =>
    if tag = str "p" then unwrapL cs
    else .cons (.element tag props (unwrapL cs)) .nil
/-- `rehypeUnwrapParagraphs` on a child list. -/
def unwrapL : HastL → HastL
  | .nil => .nil
  | .cons h t => HastL.append (unwrapNode h) (unwrapL t)
end

/-!  ### The hast phase of the pipeline

`renderedTree` applies, in the source's order, the custom hast transforms of
`createProcessor` to a tree: URL resolution (when a base URL is configured),
code-block wrapping, line numbering (when enabled), sanitization (unless
disabled) and inline unwrapping (when enabled).  The external stages that the
source interleaves (highlighter, math renderer, caller-supplied rehype
plugins — all of which run before sanitization) are not modelled; theorems
about the sanitized output therefore quantify over the whole incoming tree,
which subsumes anything those stages could have produced. -/

/-- The hast tree as it stands after the modelled transforms of the pipeline. -/
def renderedTree (opts : RenderOptions) (t : HastL) : HastL :=
  let t1 := match opts.baseUrl with | some b => resolveL b t | none => t
  let t2 := cbL t1
  let t3 := if opts.lineNumbers = some true then lnL t2 else t2
  let t4 :=
    if opts.disableHtmlSanitization = some true then t3
    else sanitizeL (buildSchema opts) t3
  if opts.inline = some true then unwrapL t4 else t4

/-- The serialized HTML string produced for a tree by the modelled pipeline. -/
def renderHast (opts : RenderOptions) (t : HastL) : Str :=
  serializeL (renderedTree opts t)

/-!  ### Pipeline assembly (`createProcessor`) -/

/-- One pipeline stage with its behaviour-relevant settings.  Built-in stages
with constant settings are bare constructors; pluggable stages carry the
plugin spec; the settings-bearing built-ins carry their settings. -/
inductive Stage where
  | remarkParseS
  | remarkGfmS
  | remarkFrontmatterS
  | extractFrontmatterS
  | emojifyS
  | plugin (p : PluginSpec)
  | remarkRehypeS
  | rehypeRawS
  | githubAlertsS
  | slugS
  | extractTocS
  | autolinkS
  | resolveUrlsS (baseUrl : Option Str)
  | codeBlocksS
  | lineNumbersS
  | sanitizeS (schema : Schema)
  | unwrapParagraphsS
  | stringifyS
deriving DecidableEq

/-- `applyPlugin` from the source: chain one plugin spec onto the pipeline. -/
def applyPluginS (l : List Stage) (p : PluginSpec) : List Stage := l ++ [ .plugin p ]

/-- `createProcessor` from the source: validate the base URL, then assemble
the fixed backbone with the configuration-dependent stages in source order. -/
def createProcessor (opts : RenderOptions) : Except RenderErr (List Stage) :=
  match validateBaseUrl opts.baseUrl with
  | .error e => .error e
  | .ok _ =>
    let l : List Stage :=
      [ .remarkParseS, .remarkGfmS, .remarkFrontmatterS, .extractFrontmatterS ]
    let l := if opts.allowEmoji ≠ some false then l ++ [ .emojifyS ] else l
    let l := match opts.math with | some m => applyPluginS l m.remarkPlugin | none => l
    let l := match opts.remarkPlugins with | some ps => ps.foldl applyPluginS l | none => l
    let l := l ++
      [ .remarkRehypeS, .rehypeRawS, .githubAlertsS, .slugS, .extractTocS, .autolinkS,
        .resolveUrlsS opts.baseUrl ]
    let l := match opts.highlighter with | some h => applyPluginS l h | none => l
    let l := match opts.math with | some m => applyPluginS l m.rehypePlugin | none => l
    let l := l ++ [ .codeBlocksS ]
    let l := if opts.lineNumbers = some true then l ++ [ .lineNumbersS ] else l
    let l := match opts.rehypePlugins with | some ps => ps.foldl applyPluginS l | none => l
    let l :=
      if opts.disableHtmlSanitization = some true then l
      else l ++ [ .sanitizeS (buildSchema opts) ]
    let l := if opts.inline = some true then l ++ [ .unwrapParagraphsS ] else l
    .ok (l ++ [ .stringifyS ])

/-!  ### Processor cache -/

/-- `MAX_CACHE_SIZE` from the source. -/
def MAX_CACHE_SIZE : Nat := 10

/-- The decoded cache fingerprint: the source JSON-stringifies exactly these
fields, so fingerprint equality is equality of this record. -/
structure CacheKey where
  highlighter : Str
  math : Bool
  allowIframes : Bool
  disableHtmlSanitization : Bool
  allowEmoji : Bool
  baseUrl : Option Str
  inline : Bool
  lineNumbers : Bool
deriving DecidableEq

/-- `getHighlighterName` from the source: `"none"` when absent, the plugin
function's `name` otherwise, `"unknown"` when the function has none. -/
def getHighlighterName : Option PluginSpec → Str
  | none => str "none"
  | some (.bare r) => r.name.getD (str "unknown")
  | some (.withSettings r _) => r.name.getD (str "unknown")

/-- `getCacheKey` from the source: no fingerprint when either custom plugin
list is non-empty; otherwise the canonical field record with defaults
applied. -/
def getCacheKey (opts : RenderOptions) : Option CacheKey :=
  if (match opts.remarkPlugins with | some (_ :: _) => true | _ => false) ||
      (match opts.rehypePlugins with | some (_ :: _) => true | _ => false) then
    none
  else
    some
      { highlighter := getHighlighterName opts.highlighter
        math := opts.math.isSome
        allowIframes := opts.allowIframes.getD false
        disableHtmlSanitization := opts.disableHtmlSanitization.getD false
        allowEmoji := opts.allowEmoji.getD true
        baseUrl := opts.baseUrl
        inline := opts.inline.getD false
        lineNumbers := opts.lineNumbers.getD false }

/-- The processor cache: key/pipeline pairs in insertion order (front =
least recently used), mirroring JS `Map` iteration order. -/
abbrev Cache := List (CacheKey × List Stage)

/-- Cache lookup. -/
def cacheGet (c : Cache) (k : CacheKey) : Option (List Stage) :=
  (c.find? (fun p => decide (p.1 = k))).map (fun p => p.2)

/-- Cache deletion (`Map.delete`). -/
def cacheDelete (c : Cache) (k : CacheKey) : Cache :=
  c.filter (fun p => !decide (p.1 = k))

/-- `getProcessor` from the source.  Returns the pipeline, a flag recording
whether it was freshly assembled (the observable assembly side effect), and
the updated cache: custom-plugin configurations bypass the cache; a hit is
moved to most-recently-used by delete + re-insert; a miss at capacity first
evicts the oldest entry. -/
def getProcessor (opts : RenderOptions) (c : Cache) :
    Except RenderErr (List Stage × Bool × Cache) :=
  match getCacheKey opts with
  | none => (createProcessor opts).map (fun p => (p, true, c))
  | some k =>
    match cacheGet c k with
    | some cached => .ok (cached, false, cacheDelete c k ++ [ (k, cached) ])
    | none =>
      let c1 := if MAX_CACHE_SIZE ≤ c.length then c.drop 1 else c
      (createProcessor opts).map (fun p => (p, true, c1 ++ [ (k, p) ]))

/-- Run `getProcessor` for a sequence of configurations, keeping the cache. -/
def runAll : List RenderOptions → Cache → Except RenderErr Cache
  | [], c => .ok c
  | o :: os, c =>
    match getProcessor o c with
    | .error e => .error e
    | .ok r => runAll os r.2.2

/-- `render` from the source, with the execution of the assembled pipeline
on the markdown text abstracted into the `process` argument: fetch or build
the pipeline, then process.  A configuration error surfaces before `process`
ever runs. -/
def renderOn (process : List Stage → Str → Str) (opts : RenderOptions)
    (markdown : Str) (c : Cache) : Except RenderErr (Str × Cache) :=
  match getProcessor opts c with
  | .error e => .error e
  | .ok r => .ok (process r.1 markdown, r.2.2)

/-!  ### Document model for TOC and frontmatter

`extractToc` and the frontmatter scan operate on the parsed markdown tree;
the external parser is modelled by taking the parsed document directly: a
list of top-level blocks, where heading content is the list of its text-node
values.  (Headings holding only plain text are modelled; inline images, math
and raw HTML in headings are outside this model.) -/

/-- A parsed top-level markdown block. -/
inductive Block where
  | heading (depth : Nat) (texts : List Str)
  | yamlBlock (v : Str)
  | para (texts : List Str)
deriving DecidableEq

/-- A parsed markdown document. -/
abbrev Doc := List Block

/-!  ### Emoji substitution (`remarkEmojify`) -/

/-- Modelled from the spec: the entries of the external gemoji database used
in this development (the source documents `:wave:` → 👋; two more common
entries are included for witnesses). -/
def emojiLookup (n : Str) : Option Str :=
  if n = str "wave" then some (str "👋")
  else if n = str "smile" then some (str "😄")
  else if n = str "+1" then some (str "👍")
  else none

/-- A character matched by the `[+\w-]` class of the source's shortcode
regex. -/
def isEmojiNameChar (c : Char) : Bool :=
  c.isAlphanum || c = '_' || c = '+' || c = '-'

/-- Fuelled scanner for `value.replace(/:([+\w-]+):/g, ...)`: at each `:`
try to read a nonempty name followed by `:`; replace known names, keep
unknown matches verbatim, and continue after the match.  The fuel only
bounds recursion depth; one unit per consumed character suffices. -/
def emojifyF : Nat → Str → Str
  | 0, s => s
  | _ + 1, [] => []
  | fuel + 1, c :: cs =>
    if c = ':' then
      let name := cs.takeWhile isEmojiNameChar
      match cs.dropWhile isEmojiNameChar with
      | ':' :: rest =>
        if name = [] then ':' :: emojifyF fuel cs
        else
          match emojiLookup name with
          | some e => e ++ emojifyF fuel rest
          | none => ':' :: name ++ ':' :: emojifyF fuel rest
      | _ => ':' :: emojifyF fuel cs
    else c :: emojifyF fuel cs

/-- `remarkEmojify`'s rewrite of one text value. -/
def emojify (s : Str) : Str := emojifyF s.length s

/-!  ### Slugs and TOC -/

/-- A table-of-contents entry. -/
structure TocEntry where
  text : Str
  depth : Nat
  slug : Str
deriving DecidableEq

/-- Modelled from the spec: the external slug generator's base slug of a
text (lowercase, spaces to hyphens, other non-alphanumerics dropped; ASCII
model). -/
def slugify (s : Str) : Str :=
  s.foldr
    (fun c acc =>
      if c = ' ' then '-' :: acc
      else if c.isAlphanum then c.toLower :: acc
      else if c = '-' ∨ c = '_' then c :: acc
      else acc)
    []

/-- Modelled from the spec: one slug assignment of the external slugger with
per-document state: a repeated base slug gets a sequential `-n` suffix. -/
def slugOnce (st : List Str) (t : Str) : Str × List Str :=
  let base := slugify t
  let n := st.count base
  (if n = 0 then base else base ++ '-' :: (Nat.repr n).data, st ++ [ base ])

/-- Assign slugs to a list of (depth, text) headings in document order with
a fresh slugger. -/
def tocGo : List Str → List (Nat × Str) → List TocEntry
  | _, [] => []
  | st, (d, t) :: rest =>
    let r := slugOnce st t
    { text := t, depth := d, slug := r.1 } :: tocGo r.2 rest

/-- The (depth, flattened text) headings of a document, as the mdast-side
`extractToc` sees them. -/
def docHeadings (d : Doc) : List (Nat × Str) :=
  d.filterMap
    (fun b =>
      match b with
      | .heading depth texts => some (depth, texts.foldr (· ++ ·) [])
      | _ => none)

/-- `extractToc` from `parse.ts`: visit headings of the parsed document,
flatten their text, and slug with a fresh slugger. -/
def extractTocM (d : Doc) : List TocEntry := tocGo [] (docHeadings d)

/-- The (depth, flattened text) headings as the rendering pipeline's hast
sees them: text values have been rewritten by `remarkEmojify` whenever emoji
substitution is enabled (the default). -/
def pipelineHeadings (opts : RenderOptions) (d : Doc) : List (Nat × Str) :=
  d.filterMap
    (fun b =>
      match b with
      | .heading depth texts =>
        some (depth,
          ((if opts.allowEmoji ≠ some false then texts.map emojify else texts).foldr
            (· ++ ·) []))
      | _ => none)

/-- The `toc` field of `renderWithMeta`: `rehypeSlug` assigns ids with the
same slugger over the pipeline's heading texts, and `rehypeExtractToc`
collects (text, depth, id) before anchor icons are injected. -/
def renderMetaToc (opts : RenderOptions) (d : Doc) : List TocEntry :=
  tocGo [] (pipelineHeadings opts d)

/-!  ### Frontmatter -/

/-- Modelled from the spec: one line of the external YAML parser's input:
`key: value` (value trimmed of leading spaces); a line without a colon is
malformed. -/
def parseYamlLine (l : Str) : Option (Str × Str) :=
  if l.contains ':' then
    some (l.takeWhile (fun c => c ≠ ':'),
      ((l.dropWhile (fun c => c ≠ ':')).drop 1).dropWhile (fun c => c = ' '))
  else none

/-- Modelled from the spec: all lines must parse, else the document is
malformed. -/
def parseYamlLines : List Str → Option (List (Str × Str))
  | [] => some []
  | l :: ls =>
    match parseYamlLine l with
    | none => none
    | some kv => (parseYamlLines ls).map (fun m => kv :: m)

/-- Modelled from the spec: the external YAML parser — a flat mapping of
`key: value` lines, throwing (here `none`) on malformed input. -/
def parseYamlM (v : Str) : Option (List (Str × Str)) :=
  parseYamlLines ((splitCh '\n' v).filter (fun l => l ≠ []))

/-- `parseFrontmatter` from `parse.ts`: scan the parsed document's top-level
nodes for the first YAML block; parse it, converting a parse failure to
`none`; later blocks are never consulted; no YAML block yields `none`. -/
def parseFrontmatterM : Doc → Option (List (Str × Str))
  | [] => none
  | .yamlBlock v :: _ => parseYamlM v
  | _ :: rest => parseFrontmatterM rest

/-- Is a block a YAML frontmatter block? -/
def Block.isYaml : Block → Bool
  | .yamlBlock _ => true
  | _ => false

/-!  ### Auxiliary definitions used by the claim theorems -/

instance {ε α : Type} [DecidableEq ε] [DecidableEq α] : DecidableEq (Except ε α) := fun a b =>
  match a, b with
  | .error e, .error f =>
    if h : e = f then isTrue (by rw [h]) else isFalse (by intro hh; cases hh; exact h rfl)
  | .ok x, .ok y =>
    if h : x = y then isTrue (by rw [h]) else isFalse (by intro hh; cases hh; exact h rfl)
  | .error _, .ok _ => isFalse (by intro hh; cases hh)
  | .ok _, .error _ => isFalse (by intro hh; cases hh)

/-- Flattened text of an ordinary list of nodes (one line's content during
line splitting). -/
def lineText : List Hast → Str
  | [] => []
  | h :: t => hastText h ++ lineText t

/-- The texts of all accumulated lines of a line-splitting state (finished
lines plus the current line). -/
def lineTexts (st : List (List Hast) × List Hast) : List Str :=
  st.1.map lineText ++ [ lineText st.2 ]

mutual
/-- Does a node's subtree contain a `pre` element? -/
def hasPreN : Hast → Bool
  | .text _ => false
  | .element tag _ cs => tag == str "pre" || hasPreL cs
/-- Does a child list contain a `pre` element? -/
def hasPreL : HastL → Bool
  | .nil => false
  | .cons h t => hasPreN h || hasPreL t
end

/-- A tag name that can never open a `<script` occurrence nor smuggle a `<`
into serialized output. -/
def tagSafe (t : Str) : Bool :=
  !((str "script").isPrefixOf t) && !(t.contains '<')

/-- An attribute name that is not an `on*` event handler and cannot smuggle
a `<` into serialized output. -/
def nameSafe (n : Str) : Bool :=
  !(n.contains '<') && !((str "on").isPrefixOf n)

/-- A schema attribute rule whose URL-bearing names (`href`/`src`) go through
the protocol check (only `any` rules do). -/
def ruleUrlOk : AttrRule → Bool
  | .any _ => true
  | .withPats n _ => !(decide (n = str "href") || decide (n = str "src"))

/-- All tag names of a schema are safe. -/
def schemaTagsOk (sc : Schema) : Bool :=
  sc.tagNames.all tagSafe

/-- All attribute rules of a schema have safe names and protocol-checked
URL attributes. -/
def schemaRulesOk (sc : Schema) : Bool :=
  sc.attributes.all (fun e => e.2.all (fun r => nameSafe r.name && ruleUrlOk r))

/-- The sanitization additions declared by a math bundle are themselves safe
(the spec treats them as trusted configuration): no tag that could open a
`script` element, no event-handler or `<`-carrying attribute name. -/
def mathSafe : Option MathPlugins → Bool
  | none => true
  | some m =>
    ((m.tagNames.getD []).all tagSafe) &&
    ((m.spanAttributes.getD []).all nameSafe) &&
    ((m.tagAttributes.getD []).all (fun p => p.2.all nameSafe))

/-- The output-safety predicate on one attribute: a safe name, and for the
URL-bearing names `href`/`src` a value that starts with neither
`javascript:` nor `vbscript:`. -/
def propSafe (p : Str × PropVal) : Bool :=
  nameSafe p.1 &&
  (if p.1 = str "href" ∨ p.1 = str "src" then
    (match p.2 with
     | .s v =>
       !((str "javascript:").isPrefixOf v) && !((str "vbscript:").isPrefixOf v)
     | .strs items =>
       items.all (fun v =>
         !((str "javascript:").isPrefixOf v) && !((str "vbscript:").isPrefixOf v))
     | _ => true)
   else true)

mutual
/-- The output-safety predicate on one sanitized node: no element whose tag
could open a `<script`, no `<` inside tags or attribute names, no `on*`
attribute name, and no `javascript:`/`vbscript:` value in an `href`/`src`
attribute. -/
def outSafeN : Hast → Bool
  | .text _ => true
  | .element tag props cs =>
    tagSafe tag &&
    props.all propSafe &&
    outSafeL cs
/-- Output safety of every node of a child list. -/
def outSafeL : HastL → Bool
  | .nil => true
  | .cons h t => outSafeN h && outSafeL t
end

/-- A string in which every occurrence of `<` already rules out a following
`script`, whatever is appended afterwards.  `SafeStr` is closed under
concatenation and implies that `<script` occurs nowhere. -/
def SafeStr (s : Str) : Prop :=
  ∀ x y, s = x ++ '<' :: y → ∀ r, ¬ ((str "script") <+: y ++ r)

/-- A math bundle that declares `script` among its allowed tags — the
configuration refuting the claim that sanitized output never contains
`<script` regardless of the math bundle. -/
def cexMathScript : MathPlugins where
  remarkPlugin := .bare { name := some (str "remarkMath"), id := 0 }
  rehypePlugin := .bare { name := some (str "rehypeKatex"), id := 1 }
  tagNames := some [ str "script" ]

/-- A document tree holding one script element. -/
def cexScriptTree : HastL :=
  .cons (.element (str "script") [] (.cons (.text (str "alert(1)")) .nil)) .nil

/-- A KaTeX-like math bundle. -/
def mathKatexA : MathPlugins where
  remarkPlugin := .bare { name := some (str "remarkMath"), id := 0 }
  rehypePlugin := .bare { name := some (str "rehypeKatex"), id := 1 }
  spanClassPrefixes := some [ str "katex" ]

/-- A math bundle with the same plugins but different sanitization additions:
same fingerprint, different pipeline. -/
def mathKatexB : MathPlugins where
  remarkPlugin := .bare { name := some (str "remarkMath"), id := 0 }
  rehypePlugin := .bare { name := some (str "rehypeKatex"), id := 1 }
  spanClassPrefixes := some [ str "mathml" ]

/-- A document whose only heading carries an emoji shortcode — the heading
text the pipeline rewrites but `extractToc` does not. -/
def emojiDoc : Doc := [ .heading 1 [ str "Hi :wave:" ] ]

/-- The i-th of eleven distinct cacheable configurations. -/
def lruCfg (i : Nat) : RenderOptions :=
  { baseUrl := some (str "https://h/" ++ (Nat.repr i).data) }

/-- Eleven distinct cacheable configurations (capacity + 1). -/
def lruCfgs : List RenderOptions := (List.range 11).map lruCfg

/-- The cache contents after serving the eleven configurations in order from
an empty cache. -/
def lruCacheAfter : Cache :=
  match runAll lruCfgs [] with
  | .ok c => c
  | .error _ => []

/-- The observable LRU scenario of the spec: after capacity + 1 distinct
cacheable configurations, the first one's fingerprint is no longer in the
cache, the cache is full, and serving the first configuration again
re-assembles its pipeline (fresh-assembly flag set). -/
def lruScenarioOk : Bool :=
  match runAll lruCfgs [] with
  | .error _ => false
  | .ok c =>
    match getCacheKey (lruCfg 0) with
    | none => false
    | some k0 =>
      (cacheGet c k0).isNone && decide (c.length = MAX_CACHE_SIZE) &&
      (match getProcessor (lruCfg 0) c with
       | .error _ => false
       | .ok r => r.2.1)

/-!
## Theorems

One theorem per claim (with witness theorems where the claim theorem carries
hypotheses), preceded by the helper lemmas they share.
-/

/-- A configuration whose base URL does not parse makes `createProcessor`
throw the invalid-base-URL error. -/
theorem cp_error (opts : RenderOptions) (b : Str)
    (hb : opts.baseUrl = some b) (hp : parseUrl b = none) :
    createProcessor opts = .error (.invalidBaseUrl b) := by
  unfold createProcessor validateBaseUrl
  rw [hb]
  simp [hp]

/-- C4: for every configuration whose base URL is present but not a
well-formed absolute URL, the render entry point fails with the
invalid-base-URL configuration error — for every processing function, every
document and every cache state not already holding that fingerprint — so no
document processing ever begins; whereas a URL inside content whose
resolution fails is never an error: `resolveUrl` returns the original text
unchanged in every failure branch. -/
theorem C4_base_url_fail_fast :
    (∀ (opts : RenderOptions) (b : Str) (c : Cache),
      opts.baseUrl = some b → parseUrl b = none →
      (∀ k, getCacheKey opts = some k → cacheGet c k = none) →
      ∀ (process : List Stage → Str → Str) (md : Str),
        renderOn process opts md c = .error (.invalidBaseUrl b)) ∧
    (∀ u b : Str, untouchedUrl u = false → [ '/' ].isPrefixOf u = true →
      parseUrl (normBase b) = none → resolveUrl u b = u) ∧
    (∀ (u b : Str) (br : UrlRec), untouchedUrl u = false → [ '/' ].isPrefixOf u = true →
      parseUrl (normBase b) = some br → urlResolve u (originOf br) = none →
      resolveUrl u b = u) ∧
    (∀ u b : Str, untouchedUrl u = false → [ '/' ].isPrefixOf u = false →
      urlResolve u (normBase b) = none → resolveUrl u b = u) := by
  refine ⟨?_, ?_, ?_, ?_⟩
  · intro opts b c hb hp hc process md
    cases hk : getCacheKey opts with
    | none => simp [renderOn, getProcessor, hk, cp_error opts b hb hp, Except.map]
    | some k =>
      simp [renderOn, getProcessor, hk, hc k hk, cp_error opts b hb hp, Except.map]
  · intro u b h1 h2 h3
    simp [resolveUrl, h1, h2, h3]
  · intro u b br h1 h2 h3 h4
    simp [resolveUrl, h1, h2, h3, h4]
  · intro u b h1 h2 h3
    simp [resolveUrl, h1, h2, h3]

/-- Witness for C4 at concrete inputs: the malformed base URL `not a url`
fails fast on an empty cache, and the malformed content URL `ftp://` is
returned unchanged. -/
theorem C4_base_url_fail_fast_witness :
    renderOn (fun _ md => md) { baseUrl := some (str "not a url") } (str "# hi") [] =
      .error (.invalidBaseUrl (str "not a url")) ∧
    resolveUrl (str "ftp://") (str "https://e.com/") = str "ftp://" :=
  ⟨C4_base_url_fail_fast.1 { baseUrl := some (str "not a url") } (str "not a url") []
      rfl (by decide) (by intro k _; rfl) (fun _ md => md) (str "# hi"),
   C4_base_url_fail_fast.2.2.2 (str "ftp://") (str "https://e.com/") (by decide) (by decide)
      (by decide)⟩

/-- C5: `resolveUrl` returns the url unchanged when it starts with
`http://`, `https://`, `//`, `#`, `data:`, `mailto:` or `tel:`; resolves a
root-relative url against only the origin of the parsed slash-normalized
base; resolves every other url against the full slash-normalized base,
returning the input unchanged when resolution fails; and on the spec's
examples with base `https://example.com/docs/`: `./page.md` resolves to
`https://example.com/docs/page.md`, `/absolute` to
`https://example.com/absolute`, and `#frag` is unchanged. -/
theorem C5_resolveUrl_spec :
    (∀ u b : Str,
      ((str "http://").isPrefixOf u = true ∨ (str "https://").isPrefixOf u = true ∨
        (str "//").isPrefixOf u = true ∨ (str "#").isPrefixOf u = true ∨
        (str "data:").isPrefixOf u = true ∨ (str "mailto:").isPrefixOf u = true ∨
        (str "tel:").isPrefixOf u = true) →
      resolveUrl u b = u) ∧
    (∀ u b : Str, untouchedUrl u = false → [ '/' ].isPrefixOf u = true →
      resolveUrl u b =
        (match parseUrl (normBase b) with
         | some br =>
           match urlResolve u (originOf br) with
           | some href => href
           | none => u
         | none => u)) ∧
    (∀ u b : Str, untouchedUrl u = false → [ '/' ].isPrefixOf u = false →
      resolveUrl u b =
        (match urlResolve u (normBase b) with
         | some href => href
         | none => u)) ∧
    resolveUrl (str "./page.md") (str "https://example.com/docs/") =
      str "https://example.com/docs/page.md" ∧
    resolveUrl (str "/absolute") (str "https://example.com/docs/") =
      str "https://example.com/absolute" ∧
    resolveUrl (str "#frag") (str "https://example.com/docs/") = str "#frag" := by
  refine ⟨?_, ?_, ?_, by decide, by decide, by decide⟩
  · intro u b h
    have hu : untouchedUrl u = true := by
      unfold untouchedUrl
      rcases h with h | h | h | h | h | h | h <;> simp [h]
    simp [resolveUrl, hu]
  · intro u b h1 h2
    simp [resolveUrl, h1, h2]
  · intro u b h1 h2
    simp [resolveUrl, h1, h2]

/-- Witness for C5 at concrete inputs: an absolute url is untouched, and the
two resolution branches are exercised on `/a` and `p`. -/
theorem C5_resolveUrl_spec_witness :
    resolveUrl (str "https://x/") (str "base") = str "https://x/" ∧
    resolveUrl (str "/a") (str "https://e.com/docs/") =
      (match parseUrl (normBase (str "https://e.com/docs/")) with
       | some br =>
         match urlResolve (str "/a") (originOf br) with
         | some href => href
         | none => str "/a"
       | none => str "/a") ∧
    resolveUrl (str "p") (str "https://e.com/docs/") =
      (match urlResolve (str "p") (normBase (str "https://e.com/docs/")) with
       | some href => href
       | none => str "p") :=
  ⟨C5_resolveUrl_spec.1 (str "https://x/") (str "base") (Or.inr (Or.inl (by decide))),
   C5_resolveUrl_spec.2.1 (str "/a") (str "https://e.com/docs/") (by decide) (by decide),
   C5_resolveUrl_spec.2.2.1 (str "p") (str "https://e.com/docs/") (by decide) (by decide)⟩

/-- Deleting a key that is present strictly shrinks the cache. -/
theorem cacheDelete_length_lt (c : Cache) (k : CacheKey) (cached : List Stage)
    (h : cacheGet c k = some cached) : (cacheDelete c k).length < c.length := by
  unfold cacheGet at h
  rcases Option.map_eq_some'.mp h with ⟨e, he, -⟩
  have hmem := List.mem_of_find?_eq_some he
  have hp : e.1 = k := by simpa using List.find?_some he
  have hne : ¬ (∀ a ∈ c, (fun p => !decide (p.1 = k)) a = true) := by
    intro hall
    have h2 := hall e hmem
    simp [hp] at h2
  have hle := List.length_filter_le (fun p => !decide (p.1 = k)) c
  rcases Nat.lt_or_ge (cacheDelete c k).length c.length with hlt | hge
  · exact hlt
  · exact absurd (List.filter_length_eq_length.mp (Nat.le_antisymm hle hge)) hne

/-- C8: the pipeline cache never exceeds its fixed capacity of 10; a hit
returns the cached pipeline without re-assembly and moves the entry to
most-recently-used (delete and re-insert at the end); a miss at capacity
evicts the front (least-recently-used) entry before inserting; and in the
concrete capacity-plus-one scenario, after serving eleven distinct cacheable
configurations from an empty cache the first one's fingerprint is gone, the
cache is at capacity, and serving the first configuration again re-assembles
its pipeline. -/
theorem C8_lru_cache :
    (∀ (opts : RenderOptions) (c : Cache) (r : List Stage × Bool × Cache),
      c.length ≤ MAX_CACHE_SIZE → getProcessor opts c = .ok r →
      r.2.2.length ≤ MAX_CACHE_SIZE) ∧
    (∀ (opts : RenderOptions) (c : Cache) (k : CacheKey) (cached : List Stage),
      getCacheKey opts = some k → cacheGet c k = some cached →
      getProcessor opts c = .ok (cached, false, cacheDelete c k ++ [ (k, cached) ])) ∧
    (∀ (opts : RenderOptions) (c : Cache) (k : CacheKey) (p : List Stage),
      getCacheKey opts = some k → cacheGet c k = none →
      c.length = MAX_CACHE_SIZE → createProcessor opts = .ok p →
      getProcessor opts c = .ok (p, true, c.drop 1 ++ [ (k, p) ])) ∧
    lruScenarioOk = true := by
  refine ⟨?_, ?_, ?_, by decide⟩
  · intro opts c r hc h
    simp only [MAX_CACHE_SIZE] at hc ⊢
    cases hk : getCacheKey opts with
    | none =>
      cases hcp : createProcessor opts with
      | error e =>
        rw [getProcessor, hk, hcp] at h
        exact Except.noConfusion h
      | ok p =>
        simp only [getProcessor, hk, hcp, Except.map, Except.ok.injEq] at h
        rw [← h]
        simpa using hc
    | some k =>
      cases hg : cacheGet c k with
      | some cached =>
        simp only [getProcessor, hk, hg, Except.ok.injEq] at h
        rw [← h]
        have := cacheDelete_length_lt c k cached hg
        simp only [List.length_append, List.length_cons, List.length_nil]
        omega
      | none =>
        cases hcp : createProcessor opts with
        | error e =>
          rw [getProcessor, hk] at h
          simp only [hg, hcp, Except.map] at h
          exact Except.noConfusion h
        | ok p =>
          simp only [getProcessor, hk, hg, hcp, Except.map, Except.ok.injEq] at h
          rw [← h]
          simp only [MAX_CACHE_SIZE] at *
          by_cases hfull : 10 ≤ c.length
          · simp only [hfull, if_pos, List.length_append, List.length_drop,
              List.length_cons, List.length_nil]
            omega
          · simp only [hfull, if_neg, not_false_eq_true, List.length_append,
              List.length_cons, List.length_nil]
            omega
  · intro opts c k cached hk hg
    simp only [getProcessor, hk, hg]
  · intro opts c k p hk hg hfull hcp
    simp only [getProcessor, hk, hg, hcp, hfull, Except.map, le_refl, if_pos]

/-- Witness for C8 at concrete inputs: capacity bound from the empty cache,
and a miss at capacity on the concrete full cache evicting the oldest
entry. -/
theorem C8_lru_cache_witness :
    ([] : Cache).length ≤ MAX_CACHE_SIZE ∧
    ((getProcessor (lruCfg 0) []).toOption.getD ([], false, [])).2.2.length ≤ MAX_CACHE_SIZE ∧
    getProcessor (lruCfg 0) lruCacheAfter =
      .ok ((createProcessor (lruCfg 0)).toOption.getD [], true,
        lruCacheAfter.drop 1 ++
          [ ({ highlighter := str "none", math := false, allowIframes := false,
               disableHtmlSanitization := false, allowEmoji := true,
               baseUrl := some (str "https://h/0"), inline := false, lineNumbers := false },
             (createProcessor (lruCfg 0)).toOption.getD []) ]) :=
  ⟨by decide,
   C8_lru_cache.1 (lruCfg 0) []
     ((getProcessor (lruCfg 0) []).toOption.getD ([], false, [])) (by decide) (by rfl),
   C8_lru_cache.2.2.1 (lruCfg 0) lruCacheAfter
     { highlighter := str "none", math := false, allowIframes := false,
       disableHtmlSanitization := false, allowEmoji := true,
       baseUrl := some (str "https://h/0"), inline := false, lineNumbers := false }
     ((createProcessor (lruCfg 0)).toOption.getD []) (by decide) (by decide) (by decide) (by rfl)⟩

/-- A run of yaml-free blocks contributes nothing to the frontmatter scan. -/
theorem pf_skip (pre : Doc) (hpre : ∀ b ∈ pre, b.isYaml = false) (rest : Doc) :
    parseFrontmatterM (pre ++ rest) = parseFrontmatterM rest := by
  induction pre with
  | nil => rfl
  | cons b t ih =>
    have hb : b.isYaml = false := hpre b (List.mem_cons_self b t)
    have ht : ∀ x ∈ t, x.isYaml = false := fun x hx => hpre x (List.mem_cons_of_mem b hx)
    cases b with
    | yamlBlock v => simp [Block.isYaml] at hb
    | heading d ts => simpa [parseFrontmatterM] using ih ht
    | para ts => simpa [parseFrontmatterM] using ih ht

/-- C9: frontmatter is parsed exactly once from the first YAML block: the
result is the YAML parse of that block whatever follows it, a second YAML
block is ignored, a document without a YAML block yields `none`, and a
malformed first block yields `none` — `parseFrontmatter` is total, so it
never throws. -/
theorem C9_frontmatter_once :
    (∀ (pre post : Doc) (v : Str),
      (∀ b ∈ pre, b.isYaml = false) →
      parseFrontmatterM (pre ++ .yamlBlock v :: post) = parseYamlM v) ∧
    (∀ (pre post : Doc) (v v2 : Str),
      (∀ b ∈ pre, b.isYaml = false) →
      parseFrontmatterM (pre ++ .yamlBlock v :: .yamlBlock v2 :: post) =
        parseFrontmatterM (pre ++ [ .yamlBlock v ])) ∧
    (∀ d : Doc, (∀ b ∈ d, b.isYaml = false) → parseFrontmatterM d = none) ∧
    (∀ (pre post : Doc) (v : Str),
      (∀ b ∈ pre, b.isYaml = false) → parseYamlM v = none →
      parseFrontmatterM (pre ++ .yamlBlock v :: post) = none) := by
  refine ⟨?_, ?_, ?_, ?_⟩
  · intro pre post v hpre
    rw [pf_skip pre hpre]
    rfl
  · intro pre post v v2 hpre
    rw [pf_skip pre hpre, pf_skip pre hpre]
    rfl
  · intro d hd
    have := pf_skip d hd []
    simpa [parseFrontmatterM] using this
  · intro pre post v hpre hv
    rw [pf_skip pre hpre]
    simpa [parseFrontmatterM] using hv

/-- Witness for C9 at concrete inputs: the first YAML block wins over a
second one, a malformed block yields `none`, and a YAML-free document
yields `none`. -/
theorem C9_frontmatter_once_witness :
    parseFrontmatterM [ .para [ str "intro" ], .yamlBlock (str "title: Hello"),
        .yamlBlock (str "title: Second") ] = some [ (str "title", str "Hello") ] ∧
    parseFrontmatterM [ .yamlBlock (str "oops") ] = none ∧
    parseFrontmatterM [ .heading 1 [ str "x" ] ] = none := by
  refine ⟨?_, ?_, ?_⟩
  · have := C9_frontmatter_once.1 [ .para [ str "intro" ] ]
      [ .yamlBlock (str "title: Second") ] (str "title: Hello") (by decide)
    simp only [List.cons_append, List.nil_append] at this
    rw [this]
    decide
  · exact C9_frontmatter_once.2.2.2 [] [] (str "oops") (by intro b hb; cases hb) (by decide)
  · exact C9_frontmatter_once.2.2.1 [ .heading 1 [ str "x" ] ] (by decide)

/-- Emptying both custom plugin lists assembles the same pipeline as
omitting them. -/
theorem cp_empty_plugins (opts : RenderOptions) :
    createProcessor { opts with remarkPlugins := some [], rehypePlugins := some [] } =
      createProcessor { opts with remarkPlugins := none, rehypePlugins := none } := by
  rfl


theorem splitCh_ne_nil (sep : Char) (s : Str) : splitCh sep s ≠ [] := by
  induction s with
  | nil => simp [splitCh]
  | cons c cs ih =>
    unfold splitCh
    by_cases hc : c = sep
    · simp [hc]
    · simp only [hc, if_neg, not_false_eq_true]
      cases h : splitCh sep cs with
      | nil => simp
      | cons l ls => simp

theorem joinCh_cons_ne (sep : Char) (a : Str) (L : List Str) (h : L ≠ []) :
    joinCh sep (a :: L) = a ++ sep :: joinCh sep L := by
  cases L with
  | nil => exact absurd rfl h
  | cons b t => rfl

theorem joinCh_splitCh (sep : Char) (s : Str) : joinCh sep (splitCh sep s) = s := by
  induction s with
  | nil => rfl
  | cons c cs ih =>
    unfold splitCh
    by_cases hc : c = sep
    · simp only [hc, if_pos]
      rw [joinCh_cons_ne sep [] (splitCh sep cs) (splitCh_ne_nil sep cs)]
      simpa using ih
    · simp only [hc, if_neg, not_false_eq_true]
      cases h : splitCh sep cs with
      | nil => exact absurd h (splitCh_ne_nil sep cs)
      | cons l ls =>
        rw [h] at ih
        cases ls with
        | nil => simpa [joinCh] using congrArg (fun t => c :: t) ih
        | cons m ms =>
          rw [joinCh_cons_ne sep (c :: l) (m :: ms) (by simp)]
          rw [joinCh_cons_ne sep l (m :: ms) (by simp)] at ih
          simpa using congrArg (fun t => c :: t) ih

theorem splitCh_free (sep : Char) (s : Str) : ∀ p ∈ splitCh sep s, p.contains sep = false := by
  induction s with
  | nil =>
    intro p hp
    simp [splitCh] at hp
    simp [hp, List.contains]
  | cons c cs ih =>
    intro p hp
    unfold splitCh at hp
    by_cases hc : c = sep
    · simp only [hc, if_pos] at hp
      rcases List.mem_cons.mp hp with rfl | hp
      · simp [List.contains]
      · exact ih p hp
    · simp only [hc, if_neg, not_false_eq_true] at hp
      cases h : splitCh sep cs with
      | nil => exact absurd h (splitCh_ne_nil sep cs)
      | cons l ls =>
        rw [h] at hp
        rcases List.mem_cons.mp hp with rfl | hp
        · have hl := ih l (h ▸ List.mem_cons_self l ls)
          simp [List.contains] at hl ⊢
          exact ⟨fun he => hc he.symm, hl⟩
        · exact ih p (h ▸ List.mem_cons_of_mem l hp)


theorem splitCh_of_free (sep : Char) (s : Str) (h : s.contains sep = false) :
    splitCh sep s = [ s ] := by
  induction s with
  | nil => rfl
  | cons c cs ih =>
    have hc : ¬ (c = sep) := by
      intro he
      simp [List.contains, he] at h
    have hcs : cs.contains sep = false := by
      simp [List.contains] at h ⊢
      exact h.2
    unfold splitCh
    simp only [hc, if_neg, not_false_eq_true]
    rw [ih hcs]

theorem splitCh_append_sep (sep : Char) (x : Str) (hx : x.contains sep = false) (r : Str) :
    splitCh sep (x ++ sep :: r) = x :: splitCh sep r := by
  induction x with
  | nil => simp [splitCh]
  | cons c cs ih =>
    have hc : ¬ (c = sep) := by
      intro he
      simp [List.contains, he] at hx
    have hcs : cs.contains sep = false := by
      simp [List.contains] at hx ⊢
      exact hx.2
    show splitCh sep (c :: (cs ++ sep :: r)) = (c :: cs) :: splitCh sep r
    conv_lhs => unfold splitCh
    simp only [hc, if_neg, not_false_eq_true]
    rw [ih hcs]

theorem splitCh_joinCh (sep : Char) (A : List Str) (hA : A ≠ [])
    (hfree : ∀ p ∈ A, p.contains sep = false) :
    splitCh sep (joinCh sep A) = A := by
  induction A with
  | nil => exact absurd rfl hA
  | cons a t ih =>
    cases t with
    | nil => exact splitCh_of_free sep a (hfree a (List.mem_cons_self a []))
    | cons b u =>
      rw [joinCh_cons_ne sep a (b :: u) (by simp)]
      rw [splitCh_append_sep sep a (hfree a (List.mem_cons_self a (b :: u))) _]
      rw [ih (by simp) (fun p hp => hfree p (List.mem_cons_of_mem a hp))]

theorem joinCh_head_extend (sep : Char) (x p : Str) (ps : List Str) :
    joinCh sep ((x ++ p) :: ps) = x ++ joinCh sep (p :: ps) := by
  cases ps with
  | nil => rfl
  | cons q qs =>
    rw [joinCh_cons_ne sep (x ++ p) (q :: qs) (by simp),
      joinCh_cons_ne sep p (q :: qs) (by simp)]
    simp

theorem joinCh_splice (sep : Char) (A : List Str) (x p : Str) (ps : List Str) :
    joinCh sep (A ++ (x ++ p) :: ps) = joinCh sep (A ++ [ x ]) ++ joinCh sep (p :: ps) := by
  induction A with
  | nil => simpa using joinCh_head_extend sep x p ps
  | cons a t ih =>
    rw [List.cons_append, List.cons_append,
      joinCh_cons_ne sep a (t ++ (x ++ p) :: ps) (by simp),
      joinCh_cons_ne sep a (t ++ [ x ]) (by simp), ih]
    simp

theorem joinCh_snoc (sep : Char) (A : List Str) (hA : A ≠ []) (x : Str) :
    joinCh sep (A ++ [ x ]) = joinCh sep A ++ sep :: x := by
  induction A with
  | nil => exact absurd rfl hA
  | cons a t ih =>
    cases t with
    | nil => rfl
    | cons b u =>
      rw [List.cons_append, joinCh_cons_ne sep a ((b :: u) ++ [ x ]) (by simp),
        joinCh_cons_ne sep a (b :: u) (by simp), ih (by simp)]
      simp

theorem joinCh_last_extend (sep : Char) (A : List Str) (x y : Str) :
    joinCh sep (A ++ [ x ++ y ]) = joinCh sep (A ++ [ x ]) ++ y := by
  cases hA : A with
  | nil => simp [joinCh]
  | cons a t =>
    rw [← hA, joinCh_snoc sep A (by rw [hA]; simp) (x ++ y),
      joinCh_snoc sep A (by rw [hA]; simp) x]
    simp



theorem lineText_append (a b : List Hast) : lineText (a ++ b) = lineText a ++ lineText b := by
  induction a with
  | nil => rfl
  | cons h t ih => simp [lineText, ih]

theorem lineText_optPart (mk : Str → Hast) (hmk : ∀ p, hastText (mk p) = p) (p : Str) :
    lineText (optPart mk p) = p := by
  unfold optPart
  by_cases hp : p = []
  · simp [hp, lineText]
  · simp [hp, lineText, hmk]

theorem consumeParts_spec (mk : Str → Hast) (hmk : ∀ p, hastText (mk p) = p) :
    ∀ (ps : List Str) (p : Str) (done : List (List Hast)) (cur : List Hast),
      lineTexts (consumeParts mk (done, cur) (p :: ps)) =
        done.map lineText ++ (lineText cur ++ p) :: ps := by
  intro ps
  induction ps with
  | nil =>
    intro p done cur
    simp [consumeParts, lineTexts, lineText_append, lineText_optPart mk hmk]
  | cons q qs ih =>
    intro p done cur
    show lineTexts (consumeParts mk (done ++ [ cur ++ optPart mk p ], []) (q :: qs)) = _
    rw [ih q (done ++ [ cur ++ optPart mk p ]) []]
    simp [lineText, lineText_append, lineText_optPart mk hmk]

theorem consumeParts_good (mk : Str → Hast) (hmk : ∀ p, hastText (mk p) = p) :
    ∀ (ps : List Str) (p : Str) (done : List (List Hast)) (cur : List Hast),
      (∀ h ∈ cur, hastText h ≠ []) →
      ∀ h ∈ (consumeParts mk (done, cur) (p :: ps)).2, hastText h ≠ [] := by
  intro ps
  induction ps with
  | nil =>
    intro p done cur hcur h hh
    simp only [consumeParts] at hh
    rcases List.mem_append.mp hh with hh | hh
    · exact hcur h hh
    · unfold optPart at hh
      by_cases hp : p = []
      · simp [hp] at hh
      · simp [hp] at hh
        rw [hh, hmk]
        exact hp
  | cons q qs ih =>
    intro p done cur hcur h hh
    exact ih q (done ++ [ cur ++ optPart mk p ]) [] (by intro x hx; cases hx) h hh


theorem contains_append_false (c : Char) (a b : Str)
    (ha : a.contains c = false) (hb : b.contains c = false) :
    (a ++ b).contains c = false := by
  simp [List.contains] at *
  exact ⟨ha, hb⟩

theorem clone_text (tag : Str) (props : List (Str × PropVal)) :
    ∀ p, hastText (.element tag props (.cons (.text p) .nil)) = p := by
  intro p
  show hastTextL (.cons (.text p) .nil) = p
  show hastText (.text p) ++ hastTextL .nil = p
  simp [hastText, hastTextL]

theorem splitStep_eq (st : List (List Hast) × List Hast) (child : Hast) :
    joinCh '\n' (lineTexts (splitStep st child)) =
      joinCh '\n' (lineTexts st) ++ hastText child := by
  obtain ⟨done, cur⟩ := st
  cases child with
  | text v =>
    show joinCh '\n' (lineTexts (consumeParts (fun p => .text p) (done, cur) (splitCh '\n' v))) = _
    cases hsp : splitCh '\n' v with
    | nil => exact absurd hsp (splitCh_ne_nil '\n' v)
    | cons p ps =>
      rw [consumeParts_spec (fun p => .text p) (fun p => rfl) ps p done cur]
      rw [joinCh_splice '\n' (done.map lineText) (lineText cur) p ps]
      rw [← hsp, joinCh_splitCh]
      rfl
  | element tag props cs =>
    show joinCh '\n' (lineTexts
      (if (hastText (.element tag props cs)).contains '\n' = true then
        consumeParts (fun p => .element tag props (.cons (.text p) .nil)) (done, cur)
          (splitCh '\n' (hastText (.element tag props cs)))
      else (done, cur ++ [ .element tag props cs ]))) = _
    by_cases hnl : (hastText (.element tag props cs)).contains '\n' = true
    · rw [if_pos hnl]
      cases hsp : splitCh '\n' (hastText (.element tag props cs)) with
      | nil => exact absurd hsp (splitCh_ne_nil '\n' _)
      | cons p ps =>
        rw [consumeParts_spec _ (clone_text tag props) ps p done cur]
        rw [joinCh_splice '\n' (done.map lineText) (lineText cur) p ps]
        rw [← hsp, joinCh_splitCh]
        rfl
    · rw [if_neg hnl]
      show joinCh '\n' (done.map lineText ++ [ lineText (cur ++ [ .element tag props cs ]) ]) = _
      rw [lineText_append]
      show joinCh '\n' (done.map lineText ++
        [ lineText cur ++ (hastText (.element tag props cs) ++ lineText []) ]) = _
      simp only [lineText, List.append_nil]
      rw [joinCh_last_extend]
      rfl


theorem lineTexts_map_mem (done : List (List Hast)) (cur : List Hast) (l : Str)
    (hl : l ∈ done.map lineText) : l ∈ lineTexts (done, cur) :=
  List.mem_append.mpr (Or.inl hl)

theorem consume_case_free (mk : Str → Hast) (hmk : ∀ p, hastText (mk p) = p)
    (done : List (List Hast)) (cur : List Hast) (v : Str)
    (hst : ∀ l ∈ lineTexts (done, cur), l.contains '\n' = false) :
    ∀ l ∈ lineTexts (consumeParts mk (done, cur) (splitCh '\n' v)),
      l.contains '\n' = false := by
  cases hsp : splitCh '\n' v with
  | nil => exact absurd hsp (splitCh_ne_nil '\n' v)
  | cons p ps =>
    intro l hl
    rw [consumeParts_spec mk hmk ps p done cur] at hl
    rcases List.mem_append.mp hl with hl | hl
    · exact hst l (lineTexts_map_mem done cur l hl)
    · rcases List.mem_cons.mp hl with rfl | hl
      · apply contains_append_false
        · exact hst (lineText cur) (List.mem_append.mpr (Or.inr (by simp)))
        · exact splitCh_free '\n' v p (hsp ▸ List.mem_cons_self p ps)
      · exact splitCh_free '\n' v l (hsp ▸ List.mem_cons_of_mem p hl)

theorem splitStep_free (st : List (List Hast) × List Hast) (child : Hast)
    (hst : ∀ l ∈ lineTexts st, l.contains '\n' = false) :
    ∀ l ∈ lineTexts (splitStep st child), l.contains '\n' = false := by
  obtain ⟨done, cur⟩ := st
  cases child with
  | text v => exact consume_case_free (fun p => .text p) (fun p => rfl) done cur v hst
  | element tag props cs =>
    by_cases hnl : (hastText (.element tag props cs)).contains '\n' = true
    · show ∀ l ∈ lineTexts
        (if (hastText (.element tag props cs)).contains '\n' = true then
          consumeParts (fun p => .element tag props (.cons (.text p) .nil)) (done, cur)
            (splitCh '\n' (hastText (.element tag props cs)))
        else (done, cur ++ [ .element tag props cs ])), l.contains '\n' = false
      rw [if_pos hnl]
      exact consume_case_free _ (clone_text tag props) done cur _ hst
    · show ∀ l ∈ lineTexts
        (if (hastText (.element tag props cs)).contains '\n' = true then
          consumeParts (fun p => .element tag props (.cons (.text p) .nil)) (done, cur)
            (splitCh '\n' (hastText (.element tag props cs)))
        else (done, cur ++ [ .element tag props cs ])), l.contains '\n' = false
      rw [if_neg hnl]
      intro l hl
      rcases List.mem_append.mp hl with hl | hl
      · exact hst l (lineTexts_map_mem done cur l hl)
      · rcases List.mem_cons.mp hl with rfl | hl
        · rw [lineText_append]
          apply contains_append_false
          · exact hst (lineText cur) (List.mem_append.mpr (Or.inr (by simp)))
          · simp only [lineText, List.append_nil]
            exact Bool.not_eq_true _ ▸ hnl
        · cases hl
    
theorem splitStep_good (st : List (List Hast) × List Hast) (child : Hast)
    (hst : ∀ h ∈ st.2, hastText h ≠ [])
    (hch : ∀ tag props ccs, child = .element tag props ccs → hastText child ≠ []) :
    ∀ h ∈ (splitStep st child).2, hastText h ≠ [] := by
  obtain ⟨done, cur⟩ := st
  cases child with
  | text v =>
    cases hsp : splitCh '\n' v with
    | nil => exact absurd hsp (splitCh_ne_nil '\n' v)
    | cons p ps =>
      show ∀ h ∈ (consumeParts (fun p => .text p) (done, cur) (splitCh '\n' v)).2, _
      rw [hsp]
      exact consumeParts_good (fun p => .text p) (fun p => rfl) ps p done cur hst
  | element tag props cs =>
    by_cases hnl : (hastText (.element tag props cs)).contains '\n' = true
    · show ∀ h ∈ ((if (hastText (.element tag props cs)).contains '\n' = true then
          consumeParts (fun p => .element tag props (.cons (.text p) .nil)) (done, cur)
            (splitCh '\n' (hastText (.element tag props cs)))
        else (done, cur ++ [ .element tag props cs ]))).2, hastText h ≠ []
      rw [if_pos hnl]
      cases hsp : splitCh '\n' (hastText (.element tag props cs)) with
      | nil => exact absurd hsp (splitCh_ne_nil '\n' _)
      | cons p ps =>
        exact consumeParts_good _ (clone_text tag props) ps p done cur hst
    · show ∀ h ∈ ((if (hastText (.element tag props cs)).contains '\n' = true then
          consumeParts (fun p => .element tag props (.cons (.text p) .nil)) (done, cur)
            (splitCh '\n' (hastText (.element tag props cs)))
        else (done, cur ++ [ .element tag props cs ]))).2, hastText h ≠ []
      rw [if_neg hnl]
      intro h hh
      rcases List.mem_append.mp hh with hh | hh
      · exact hst h hh
      · rcases List.mem_cons.mp hh with rfl | hh
        · exact hch tag props cs rfl
        · cases hh


theorem fold_spec (cs : List Hast) :
    ∀ st : List (List Hast) × List Hast,
      (∀ h ∈ cs, ∀ tag props ccs, h = .element tag props ccs → hastText h ≠ []) →
      joinCh '\n' (lineTexts (cs.foldl splitStep st)) =
        joinCh '\n' (lineTexts st) ++ lineText cs ∧
      ((∀ l ∈ lineTexts st, l.contains '\n' = false) →
        ∀ l ∈ lineTexts (cs.foldl splitStep st), l.contains '\n' = false) ∧
      ((∀ h ∈ st.2, hastText h ≠ []) → ∀ h ∈ (cs.foldl splitStep st).2, hastText h ≠ []) := by
  induction cs with
  | nil =>
    intro st hcs
    refine ⟨by simp [lineText], fun h => h, fun h => h⟩
  | cons c t ih =>
    intro st hcs
    have hc : ∀ tag props ccs, c = .element tag props ccs → hastText c ≠ [] :=
      hcs c (List.mem_cons_self c t)
    have ht : ∀ h ∈ t, ∀ tag props ccs, h = .element tag props ccs → hastText h ≠ [] :=
      fun h hh => hcs h (List.mem_cons_of_mem c hh)
    obtain ⟨ihEq, ihFree, ihGood⟩ := ih (splitStep st c) ht
    refine ⟨?_, ?_, ?_⟩
    · show joinCh '\n' (lineTexts (t.foldl splitStep (splitStep st c))) = _
      rw [ihEq, splitStep_eq st c]
      simp [lineText]
    · intro hfree
      exact ihFree (splitStep_free st c hfree)
    · intro hgood
      exact ihGood (splitStep_good st c hgood hc)

theorem snoc_inj {α : Type} (A B : List α) (a b : α) (h : A ++ [ a ] = B ++ [ b ]) :
    A = B ∧ a = b := by
  have hr := congrArg List.reverse h
  simp only [List.reverse_append, List.reverse_cons, List.reverse_nil, List.nil_append,
    List.singleton_append, List.cons.injEq] at hr
  exact ⟨by
    have := congrArg List.reverse hr.2
    simpa using this, hr.1⟩

theorem lineText_nil_of_good (cur : List Hast) (hg : ∀ h ∈ cur, hastText h ≠ [])
    (he : lineText cur = []) : cur = [] := by
  cases cur with
  | nil => rfl
  | cons h t =>
    exfalso
    have : hastText h ++ lineText t = [] := he
    exact hg h (List.mem_cons_self h t) (List.append_eq_nil.mp this).1

theorem hastTextL_ofList (xs : List Hast) : hastTextL (HastL.ofList xs) = lineText xs := by
  induction xs with
  | nil => rfl
  | cons h t ih =>
    show hastText h ++ hastTextL (HastL.ofList t) = _
    rw [ih]
    rfl

theorem wrapLine_text (l : List Hast) : hastText (wrapLine l) = lineText l ++ [ '\n' ] := by
  show hastTextL (HastL.ofList (if l.length > 0 then l ++ [ .text [ '\n' ] ] else [ .text [ '\n' ] ])) = _
  by_cases hl : l.length > 0
  · rw [if_pos hl, hastTextL_ofList, lineText_append]
    simp [lineText, hastText]
  · rw [if_neg hl]
    have : l = [] := List.length_eq_zero.mp (Nat.le_zero.mp (Nat.not_lt.mp hl))
    subst this
    simp [hastTextL_ofList, lineText, hastText]

theorem spans_text (done : List (List Hast)) (hd : done ≠ []) :
    lineText (done.map wrapLine) = joinCh '\n' (done.map lineText) ++ [ '\n' ] := by
  induction done with
  | nil => exact absurd rfl hd
  | cons x t ih =>
    cases t with
    | nil => simp [lineText, wrapLine_text, joinCh]
    | cons y u =>
      show lineText (wrapLine x :: (y :: u).map wrapLine) = _
      have : lineText (wrapLine x :: (y :: u).map wrapLine) =
          hastText (wrapLine x) ++ lineText ((y :: u).map wrapLine) := rfl
      rw [this, wrapLine_text, ih (by simp)]
      simp only [List.map_cons]
      rw [joinCh_cons_ne '\n' (lineText x) (lineText y :: u.map lineText) (by simp)]
      simp


/-- C6: when line numbering splits a code block whose flattened text is N
newline-terminated non-empty lines (and whose element children have
non-empty text, as highlighter token spans do), the transform produces
exactly N `span.line` wrappers whose concatenated text content reproduces
the original code text including the trailing newline; the trailing empty
final line produced by the final newline is dropped; and an empty code block
still yields exactly one line-span containing only the newline, never
zero. -/
theorem C6_line_splitting :
    (∀ (cs : List Hast) (ls : List Str),
      ls ≠ [] →
      (∀ l ∈ ls, l ≠ [] ∧ l.contains '\n' = false) →
      (∀ h ∈ cs, ∀ tag props ccs, h = Hast.element tag props ccs → hastText h ≠ []) →
      lineText cs = joinCh '\n' ls ++ [ '\n' ] →
      (splitLines cs).length = ls.length ∧
      hastTextL (HastL.ofList ((splitLines cs).map wrapLine)) = joinCh '\n' ls ++ [ '\n' ]) ∧
    splitLines [] = [ [] ] ∧
    (splitLines []).map wrapLine = [ wrapLine [] ] ∧
    hastText (wrapLine []) = [ '\n' ] ∧
    splitLines [ .text (str "a\n") ] = [ [ .text (str "a") ] ] ∧
    (∀ (props : List (Str × PropVal)) (cs0 : HastL),
      lnCode (.element (str "code") props cs0) =
        .element (str "code") props (HastL.ofList ((splitLines cs0.toList).map wrapLine))) := by
  refine ⟨?_, by decide, by decide, by decide, by decide, fun props cs0 => rfl⟩
  intro cs ls hne hlsP helems htext
  obtain ⟨hEq, hFree, hGood⟩ := fold_spec cs ([], []) helems
  have hjoin : joinCh '\n' (lineTexts (cs.foldl splitStep ([], []))) = lineText cs := by
    rw [hEq]
    simp [lineTexts, lineText, joinCh]
  have hfree : ∀ l ∈ lineTexts (cs.foldl splitStep ([], [])), l.contains '\n' = false := by
    apply hFree
    intro l hl
    simp only [lineTexts, List.map_nil, List.nil_append, List.mem_cons] at hl
    rcases hl with rfl | hl
    · rfl
    · cases hl
  have hgood : ∀ h ∈ (cs.foldl splitStep ([], [])).2, hastText h ≠ [] := by
    apply hGood
    intro h hh
    cases hh
  have hrhs : lineText cs = joinCh '\n' (ls ++ [ ([] : Str) ]) := by
    rw [htext, joinCh_snoc '\n' ls hne []]
  have hdecomp : lineTexts (cs.foldl splitStep ([], [])) = ls ++ [ ([] : Str) ] := by
    have h1 := splitCh_joinCh '\n' (lineTexts (cs.foldl splitStep ([], [])))
      (by simp [lineTexts]) hfree
    have h2 : splitCh '\n' (joinCh '\n' (ls ++ [ ([] : Str) ])) = ls ++ [ ([] : Str) ] := by
      apply splitCh_joinCh '\n' _ (by simp)
      intro p hp
      rcases List.mem_append.mp hp with hp | hp
      · exact (hlsP p hp).2
      · rcases List.mem_cons.mp hp with rfl | hp
        · rfl
        · cases hp
    calc lineTexts (cs.foldl splitStep ([], []))
        = splitCh '\n' (joinCh '\n' (lineTexts (cs.foldl splitStep ([], [])))) := h1.symm
      _ = splitCh '\n' (joinCh '\n' (ls ++ [ ([] : Str) ])) := by rw [hjoin, hrhs]
      _ = ls ++ [ ([] : Str) ] := h2
  unfold lineTexts at hdecomp
  obtain ⟨hmap, hcur⟩ := snoc_inj _ _ _ _ hdecomp
  have hcurnil : (cs.foldl splitStep ([], [])).2 = [] :=
    lineText_nil_of_good _ hgood hcur
  have hdone : (cs.foldl splitStep ([], [])).1 ≠ [] := by
    intro h0
    rw [h0] at hmap
    simp at hmap
    exact hne hmap
  have hsplit : splitLines cs = (cs.foldl splitStep ([], [])).1 := by
    unfold splitLines
    rw [if_pos ⟨hdone, hcurnil⟩]
  constructor
  · rw [hsplit]
    have := congrArg List.length hmap
    simpa using this
  · rw [hsplit, hastTextL_ofList, spans_text _ hdone, hmap]

/-- Witness for C6 at a concrete two-line code block. -/
theorem C6_line_splitting_witness :
    (splitLines [ .text (str "const x = 1;\nreturn x;\n") ]).length = 2 ∧
    hastTextL (HastL.ofList
        ((splitLines [ .text (str "const x = 1;\nreturn x;\n") ]).map wrapLine)) =
      joinCh '\n' [ str "const x = 1;", str "return x;" ] ++ [ '\n' ] := by
  have := C6_line_splitting.1 [ .text (str "const x = 1;\nreturn x;\n") ]
    [ str "const x = 1;", str "return x;" ] (by decide)
    (by decide)
    (by
      intro h hh tag props ccs heq
      simp only [List.mem_cons, List.not_mem_nil, or_false] at hh
      subst hh
      cases heq)
    (by decide)
  exact this

/-- C2 counterexample: under the default configuration (emoji substitution
on) a heading containing an emoji shortcode gets a different text and slug in
the pipeline's TOC than in `extractToc`, refuting the claim for every
document and configuration. -/
theorem C2_counterexample :
    renderMetaToc {} emojiDoc ≠ extractTocM emojiDoc := by decide

/-- Slug assignment only depends on the heading list. -/
theorem tocGo_congr_aux (hs1 hs2 : List (Nat × Str)) (st : List Str) (h : hs1 = hs2) :
    tocGo st hs1 = tocGo st hs2 := by rw [h]

/-- C2 as amended: for documents whose heading texts are fixed points of the
emoji substitution (so the pipeline's content transforms leave heading text
unchanged), `renderWithMeta`'s TOC equals `extractToc` entry by entry in
text, depth and slug, for every configuration; moreover the TOC depends on
no configuration field other than the emoji flag — in particular it is
independent of the highlighter and math configuration. -/
theorem C2_toc_amended :
    (∀ (opts : RenderOptions) (d : Doc),
      (∀ b ∈ d, ∀ depth texts, b = .heading depth texts → ∀ t ∈ texts, emojify t = t) →
      renderMetaToc opts d = extractTocM d) ∧
    (∀ (o1 o2 : RenderOptions) (d : Doc), o1.allowEmoji = o2.allowEmoji →
      renderMetaToc o1 d = renderMetaToc o2 d) := by
  constructor
  · intro opts d hd
    unfold renderMetaToc extractTocM
    apply tocGo_congr_aux
    unfold pipelineHeadings docHeadings
    induction d with
    | nil => rfl
    | cons b t ih =>
      have ht : ∀ x ∈ t, ∀ depth texts, x = .heading depth texts → ∀ s ∈ texts, emojify s = s :=
        fun x hx => hd x (List.mem_cons_of_mem b hx)
      have hb := hd b (List.mem_cons_self b t)
      cases b with
      | heading depth texts =>
        have htexts : ∀ s ∈ texts, emojify s = s := hb depth texts rfl
        have hmap : texts.map emojify = texts := by
          conv_rhs => rw [← List.map_id texts]
          exact List.map_congr_left htexts
        simp only [List.filterMap_cons]
        rw [ih ht]
        by_cases he : opts.allowEmoji ≠ some false
        · simp [he, hmap]
        · simp [he]
      | yamlBlock v =>
        simp only [List.filterMap_cons]
        exact ih ht
      | para texts =>
        simp only [List.filterMap_cons]
        exact ih ht
  · intro o1 o2 d h
    unfold renderMetaToc pipelineHeadings
    rw [h]

/-- Witness for C2 as amended: a document with frontmatter and two plain
headings, rendered with a math bundle configured. -/
theorem C2_toc_amended_witness :
    renderMetaToc { math := some mathKatexA }
      [ .yamlBlock (str "title: x"), .heading 1 [ str "First" ], .heading 2 [ str "Second" ] ] =
      extractTocM
        [ .yamlBlock (str "title: x"), .heading 1 [ str "First" ], .heading 2 [ str "Second" ] ] :=
  C2_toc_amended.1 { math := some mathKatexA }
    [ .yamlBlock (str "title: x"), .heading 1 [ str "First" ], .heading 2 [ str "Second" ] ]
    (by
      intro b hb depth texts heq
      simp only [List.mem_cons, List.not_mem_nil, or_false] at hb
      rcases hb with rfl | rfl | rfl
      · cases heq
      · cases heq
        intro t htx
        simp only [List.mem_cons, List.not_mem_nil, or_false] at htx
        subst htx
        decide
      · cases heq
        intro t htx
        simp only [List.mem_cons, List.not_mem_nil, or_false] at htx
        subst htx
        decide)


/-- C3 counterexample: two configurations carrying different math bundles
(different declared sanitization additions, hence different sanitize stages
and behaviorally different pipelines) receive the same cache fingerprint,
refuting the claim that equal fingerprints imply behaviorally identical
pipelines. -/
theorem C3_counterexample :
    getCacheKey { math := some mathKatexA } = getCacheKey { math := some mathKatexB } ∧
    (getCacheKey { math := some mathKatexA }).isSome = true ∧
    createProcessor { math := some mathKatexA } ≠ createProcessor { math := some mathKatexB } := by
  refine ⟨by decide, by decide, by decide⟩

/-- Equal `getD true` defaults give equal JS-truthiness of not-false. -/
theorem optDefTrue_cond (a b : Option Bool) (h : a.getD true = b.getD true) :
    (a ≠ some false) = (b ≠ some false) := by
  rcases a with _ | av <;> rcases b with _ | bv
  · rfl
  · cases bv <;> simp_all
  · cases av <;> simp_all
  · cases av <;> cases bv <;> simp_all

/-- Equal `getD false` defaults give equal JS-truthiness. -/
theorem optDefFalse_cond (a b : Option Bool) (h : a.getD false = b.getD false) :
    (a = some true) = (b = some true) := by
  rcases a with _ | av <;> rcases b with _ | bv
  · rfl
  · cases bv <;> simp_all
  · cases av <;> simp_all
  · cases av <;> cases bv <;> simp_all

/-- The sanitization schema depends only on the math bundle and the iframe
flag's truthiness. -/
theorem buildSchema_congr (o1 o2 : RenderOptions) (hm : o1.math = o2.math)
    (hi : (o1.allowIframes = some true) = (o2.allowIframes = some true)) :
    buildSchema o1 = buildSchema o2 := by
  unfold buildSchema
  rw [hm]
  simp only [hi]

/-- A plugin-list field that fails the cache-bypass guard is absent or
empty. -/
theorem customShape (o : Option (List PluginSpec))
    (hg : (match o with | some (_ :: _) => true | _ => false) = false) :
    o = none ∨ o = some [] := by
  rcases o with _ | ps
  · exact Or.inl rfl
  · cases ps with
    | nil => exact Or.inr rfl
    | cons p t => simp at hg

/-- C3 as amended: among configurations that additionally agree on the math
bundle and the highlighter plugin themselves (the two components the
fingerprint only records by presence and name), equal fingerprints do imply
identical pipelines: every stage, in the same order, with the same
settings. -/
theorem C3_amended (o1 o2 : RenderOptions) (k : CacheKey)
    (h1 : getCacheKey o1 = some k) (h2 : getCacheKey o2 = some k)
    (hm : o1.math = o2.math) (hh : o1.highlighter = o2.highlighter) :
    createProcessor o1 = createProcessor o2 := by
  unfold getCacheKey at h1 h2
  by_cases g1 : ((match o1.remarkPlugins with | some (_ :: _) => true | _ => false) ||
      (match o1.rehypePlugins with | some (_ :: _) => true | _ => false)) = true
  · rw [if_pos g1] at h1; cases h1
  by_cases g2 : ((match o2.remarkPlugins with | some (_ :: _) => true | _ => false) ||
      (match o2.rehypePlugins with | some (_ :: _) => true | _ => false)) = true
  · rw [if_pos g2] at h2
    cases h2
  rw [if_neg g1] at h1
  rw [if_neg g2] at h2
  have r1 := Option.some.inj h1
  have r2 := Option.some.inj h2
  have hbase : o1.baseUrl = o2.baseUrl := by
    have e1 := congrArg CacheKey.baseUrl r1
    have e2 := congrArg CacheKey.baseUrl r2
    simp at e1 e2
    rw [e1, e2]
  have hemoji : (o1.allowEmoji ≠ some false) = (o2.allowEmoji ≠ some false) := by
    apply optDefTrue_cond
    have e1 := congrArg CacheKey.allowEmoji r1
    have e2 := congrArg CacheKey.allowEmoji r2
    simp at e1 e2
    rw [e1, e2]
  have hln : (o1.lineNumbers = some true) = (o2.lineNumbers = some true) := by
    apply optDefFalse_cond
    have e1 := congrArg CacheKey.lineNumbers r1
    have e2 := congrArg CacheKey.lineNumbers r2
    simp at e1 e2
    rw [e1, e2]
  have hdis : (o1.disableHtmlSanitization = some true) =
      (o2.disableHtmlSanitization = some true) := by
    apply optDefFalse_cond
    have e1 := congrArg CacheKey.disableHtmlSanitization r1
    have e2 := congrArg CacheKey.disableHtmlSanitization r2
    simp at e1 e2
    rw [e1, e2]
  have hinl : (o1.inline = some true) = (o2.inline = some true) := by
    apply optDefFalse_cond
    have e1 := congrArg CacheKey.inline r1
    have e2 := congrArg CacheKey.inline r2
    simp at e1 e2
    rw [e1, e2]
  have hifr : (o1.allowIframes = some true) = (o2.allowIframes = some true) := by
    apply optDefFalse_cond
    have e1 := congrArg CacheKey.allowIframes r1
    have e2 := congrArg CacheKey.allowIframes r2
    simp at e1 e2
    rw [e1, e2]
  have g1' := Bool.or_eq_false_iff.mp (by simpa using g1)
  have g2' := Bool.or_eq_false_iff.mp (by simpa using g2)
  unfold createProcessor
  rw [hbase, hm, hh, buildSchema_congr o1 o2 hm hifr]
  simp only [hemoji, hln, hdis, hinl]
  rcases customShape o1.remarkPlugins g1'.1 with hr1 | hr1 <;>
    rcases customShape o1.rehypePlugins g1'.2 with hy1 | hy1 <;>
      rcases customShape o2.remarkPlugins g2'.1 with hr2 | hr2 <;>
        rcases customShape o2.rehypePlugins g2'.2 with hy2 | hy2 <;>
          rw [hr1, hy1, hr2, hy2] <;> rfl

/-- Witness for C3 as amended: the default configuration and the
configuration that spells out `allowEmoji: true` share a fingerprint and
assemble the same pipeline. -/
theorem C3_amended_witness :
    createProcessor {} = createProcessor { allowEmoji := some true } :=
  C3_amended {} { allowEmoji := some true }
    { highlighter := str "none", math := false, allowIframes := false,
      disableHtmlSanitization := false, allowEmoji := true, baseUrl := none,
      inline := false, lineNumbers := false }
    (by decide) (by decide) rfl rfl


mutual
theorem cbNode_id : ∀ h : Hast, hasPreN h = false → cbNode h = h
  | .text _, _ => rfl
  | .element tag props cs, hp => by
    have hp' : (tag == str "pre") = false ∧ hasPreL cs = false := by
      unfold hasPreN at hp
      exact Bool.or_eq_false_iff.mp hp
    have h1 : ¬ (tag = str "pre") := by simpa using hp'.1
    unfold cbNode
    rw [if_neg h1, cbL_id cs hp'.2]
theorem cbL_id : ∀ l : HastL, hasPreL l = false → cbL l = l
  | .nil, _ => rfl
  | .cons h t, hp => by
    have hp' : hasPreN h = false ∧ hasPreL t = false := by
      unfold hasPreL at hp
      exact Bool.or_eq_false_iff.mp hp
    unfold cbL
    rw [cbNode_id h hp'.1, cbL_id t hp'.2]
end

/-- C7: a `pre` with a `code` child is replaced, in its parent's child list,
by exactly one `div.highlight` wrapper; with a non-empty `language-*` class
the wrapper holds the `div.code-header` > `span.code-lang` header (language
name as text) followed by the original `pre` unchanged; without one it holds
only the original `pre`; and a `pre` without a `code` child (and with no
nested `pre`) is left untouched. -/
theorem C7_code_block_wrapper :
    (∀ (props : List (Str × PropVal)) (cs : HastL) (code : Hast) (rest : HastL),
      findCode cs = some code →
      cbL (.cons (.element (str "pre") props cs) rest) =
        .cons (wrapPre (.element (str "pre") props cs) code) (cbL rest)) ∧
    (∀ (pre code : Hast) (lang : Str),
      languageOf code = some lang → lang ≠ [] →
      wrapPre pre code =
        .element (str "div") [ (str "className", .strs [ str "highlight" ]) ]
          (.cons (codeHeader lang) (.cons pre .nil))) ∧
    (∀ pre code : Hast,
      (languageOf code = none ∨ languageOf code = some []) →
      wrapPre pre code =
        .element (str "div") [ (str "className", .strs [ str "highlight" ]) ]
          (.cons pre .nil)) ∧
    (∀ (props : List (Str × PropVal)) (cs : HastL) (rest : HastL),
      findCode cs = none → hasPreL cs = false →
      cbL (.cons (.element (str "pre") props cs) rest) =
        .cons (.element (str "pre") props cs) (cbL rest)) := by
  refine ⟨?_, ?_, ?_, ?_⟩
  · intro props cs code rest h
    show HastL.cons (cbNode (.element (str "pre") props cs)) (cbL rest) = _
    unfold cbNode
    simp [h]
  · intro pre code lang h hne
    unfold wrapPre
    rw [h]
    simp [hne]
  · intro pre code h
    unfold wrapPre
    rcases h with h | h
    · rw [h]
    · rw [h]
      rfl
  · intro props cs rest h hfree
    show HastL.cons (cbNode (.element (str "pre") props cs)) (cbL rest) = _
    unfold cbNode
    simp [h, cbL_id cs hfree]

/-- Witness for C7 at concrete inputs: a TypeScript-tagged block, a
language-free block, and a code-less `pre`. -/
theorem C7_code_block_wrapper_witness :
    cbL (.cons (.element (str "pre") []
        (.cons (.element (str "code") [ (str "className", .strs [ str "language-ts" ]) ]
          (.cons (.text (str "x")) .nil)) .nil)) .nil) =
      .cons (wrapPre
        (.element (str "pre") []
          (.cons (.element (str "code") [ (str "className", .strs [ str "language-ts" ]) ]
            (.cons (.text (str "x")) .nil)) .nil))
        (.element (str "code") [ (str "className", .strs [ str "language-ts" ]) ]
          (.cons (.text (str "x")) .nil))) (cbL .nil) ∧
    wrapPre (.element (str "pre") [] .nil)
        (.element (str "code") [ (str "className", .strs [ str "language-ts" ]) ] .nil) =
      .element (str "div") [ (str "className", .strs [ str "highlight" ]) ]
        (.cons (codeHeader (str "ts")) (.cons (.element (str "pre") [] .nil) .nil)) ∧
    wrapPre (.element (str "pre") [] .nil) (.element (str "code") [] .nil) =
      .element (str "div") [ (str "className", .strs [ str "highlight" ]) ]
        (.cons (.element (str "pre") [] .nil) .nil) ∧
    cbL (.cons (.element (str "pre") [] (.cons (.text (str "plain")) .nil)) .nil) =
      .cons (.element (str "pre") [] (.cons (.text (str "plain")) .nil)) (cbL .nil) :=
  ⟨C7_code_block_wrapper.1 [] _ _ .nil (by decide),
   C7_code_block_wrapper.2.1 _ _ (str "ts") (by decide) (by decide),
   C7_code_block_wrapper.2.2.1 _ _ (Or.inl (by decide)),
   C7_code_block_wrapper.2.2.2 [] _ .nil (by decide) (by decide)⟩


/-- C10: a configuration whose custom plugin fields are present but empty is
fingerprinted and served exactly as if the fields were absent (identical
fingerprint, identical `getProcessor` behaviour on every cache), while a
configuration with at least one custom plugin in either list has no
fingerprint and is freshly assembled on every call with the cache left
untouched. -/
theorem C10_empty_plugin_lists :
    (∀ opts : RenderOptions,
      getCacheKey { opts with remarkPlugins := some [], rehypePlugins := some [] } =
        getCacheKey { opts with remarkPlugins := none, rehypePlugins := none } ∧
      (getCacheKey { opts with remarkPlugins := some [], rehypePlugins := some [] }).isSome =
        true ∧
      ∀ c : Cache,
        getProcessor { opts with remarkPlugins := some [], rehypePlugins := some [] } c =
          getProcessor { opts with remarkPlugins := none, rehypePlugins := none } c) ∧
    (∀ (opts : RenderOptions) (p : PluginSpec) (ps : List PluginSpec),
      (opts.remarkPlugins = some (p :: ps) ∨ opts.rehypePlugins = some (p :: ps)) →
      getCacheKey opts = none ∧
      ∀ c : Cache, getProcessor opts c = (createProcessor opts).map (fun q => (q, true, c))) := by
  constructor
  · intro opts
    refine ⟨rfl, rfl, ?_⟩
    intro c
    rfl
  · intro opts p ps h
    have hk : getCacheKey opts = none := by
      unfold getCacheKey
      rcases h with h | h <;> rw [h] <;> simp
    exact ⟨hk, fun c => by unfold getProcessor; rw [hk]⟩

/-- Witness for C10 at concrete inputs: empty lists share the default
configuration's fingerprint; one custom remark plugin removes the
fingerprint. -/
theorem C10_empty_plugin_lists_witness :
    getCacheKey { remarkPlugins := some [], rehypePlugins := some [] } =
      getCacheKey ({} : RenderOptions) ∧
    getCacheKey { remarkPlugins := some [ .bare { name := some (str "remarkToc"), id := 7 } ] } =
      none :=
  ⟨(C10_empty_plugin_lists.1 {}).1,
   (C10_empty_plugin_lists.2
      { remarkPlugins := some [ .bare { name := some (str "remarkToc"), id := 7 } ] }
      (.bare { name := some (str "remarkToc"), id := 7 }) [] (Or.inl rfl)).1⟩

end Gfm
namespace Gfm

theorem prefix_append_cases {α : Type} (s a b : List α) (h : s <+: a ++ b) :
    s <+: a ∨ (a <+: s ∧ s.drop a.length <+: b) := by
  induction a generalizing s with
  | nil =>
    right
    simpa using h
  | cons x a' ih =>
    cases s with
    | nil => exact Or.inl List.nil_prefix
    | cons y s' =>
      rw [List.cons_append] at h
      obtain ⟨rfl, h'⟩ := List.cons_prefix_cons.mp h
      rcases ih s' h' with h1 | ⟨h2, h3⟩
      · exact Or.inl (List.cons_prefix_cons.mpr ⟨rfl, h1⟩)
      · exact Or.inr ⟨List.cons_prefix_cons.mpr ⟨rfl, h2⟩, by simpa using h3⟩

theorem script_not_prefix_mid (tag : Str) (htag : (str "script").isPrefixOf tag = false)
    (c : Char) (hc : c = ' ' ∨ c = '>') (w : Str) :
    ¬ (str "script") <+: (tag ++ c :: w) := by
  intro h
  rcases prefix_append_cases (str "script") tag (c :: w) h with h1 | ⟨h2, h3⟩
  · exact absurd (List.isPrefixOf_iff_prefix.mpr h1) (by simp [htag])
  · have hlen : tag.length ≤ 6 := by
      have := h2.length_le
      simpa using this
    by_cases h6 : tag.length = 6
    · have heq : tag = str "script" := h2.eq_of_length (by simpa using h6)
      rw [heq] at htag
      exact absurd htag (by decide)
    · have hlt : tag.length < 6 := Nat.lt_of_le_of_ne hlen h6
      interval_cases htl : tag.length <;>
        rcases hc with rfl | rfl <;>
          exact absurd (List.cons_prefix_cons.mp h3).1 (by decide)

end Gfm
namespace Gfm

theorem safeStr_of_no_lt (s : Str) (h : ∀ c ∈ s, c ≠ '<') : SafeStr s := by
  intro x y hxy r hs
  have : '<' ∈ s := by
    rw [hxy]
    exact List.mem_append.mpr (Or.inr (List.mem_cons_self _ _))
  exact h '<' this rfl

theorem safeStr_append (a b : Str) (ha : SafeStr a) (hb : SafeStr b) : SafeStr (a ++ b) := by
  intro x y hxy r hs
  rcases List.append_eq_append_iff.mp hxy with ⟨w, hw1, hw2⟩ | ⟨w, hw1, hw2⟩
  · -- the marker lies inside b
    exact hb w y hw2 r hs
  · -- a = x ++ w and '<' :: y = w ++ b
    cases w with
    | nil =>
      simp only [List.nil_append] at hw2
      exact hb [] y hw2.symm r hs
    | cons d w2 =>
      rw [List.cons_append] at hw2
      obtain ⟨rfl, hy⟩ := List.cons.inj hw2
      refine ha x w2 hw1 (b ++ r) ?_
      rw [← List.append_assoc, ← hy]
      exact hs

end Gfm
namespace Gfm

theorem safeStr_no_script (s : Str) (h : SafeStr s) : ¬ ((str "<script") <:+: s) := by
  intro hinf
  obtain ⟨x, z, hxz⟩ := hinf
  have hform : s = x ++ '<' :: (str "script" ++ z) := by
    rw [← hxz]
    simp [str]
  exact h x (str "script" ++ z) hform [] (by simp)

theorem safeStr_close (tag : Str) (hlt : ∀ c ∈ tag, c ≠ '<') :
    SafeStr ('<' :: '/' :: (tag ++ [ '>' ])) := by
  intro x y hxy r hs
  cases x with
  | nil =>
    obtain ⟨-, hy⟩ := List.cons.inj hxy
    rw [← hy] at hs
    have : 's' = '/' := (List.cons_prefix_cons.mp hs).1
    exact absurd this (by decide)
  | cons d x' =>
    obtain ⟨rfl, hx⟩ := List.cons.inj hxy
    cases x' with
    | nil =>
      obtain ⟨hcontra, -⟩ := List.cons.inj hx
      exact absurd hcontra (by decide)
    | cons e x'' =>
      obtain ⟨rfl, hx2⟩ := List.cons.inj hx
      exfalso
      have : '<' ∈ tag ++ [ '>' ] := by
        rw [hx2]
        exact List.mem_append.mpr (Or.inr (List.mem_cons_self _ _))
      rcases List.mem_append.mp this with hm | hm
      · exact hlt '<' hm rfl
      · simp at hm

end Gfm
namespace Gfm

theorem safeStr_open (tag : Str) (htag : tagSafe tag = true)
    (mid : Str) (hmid : ∀ c ∈ mid, c ≠ '<')
    (hhead : mid = [] ∨ ∃ t, mid = ' ' :: t)
    (rest : Str) (hrest : SafeStr rest) :
    SafeStr ('<' :: (tag ++ (mid ++ '>' :: rest))) := by
  have hparts : (str "script").isPrefixOf tag = false ∧ tag.contains '<' = false := by
    unfold tagSafe at htag
    simpa using htag
  have htag2 : (str "script").isPrefixOf tag = false := hparts.1
  have htaglt : ∀ c ∈ tag, c ≠ '<' := by
    intro c hc he
    subst he
    have h2 := hparts.2
    simp [List.contains] at h2
    exact h2 hc
  intro x y hxy r hs
  cases x with
  | nil =>
    -- the opening marker itself
    obtain ⟨-, hy⟩ := List.cons.inj hxy
    rw [← hy] at hs
    rcases hhead with rfl | ⟨t, rfl⟩
    · -- mid empty: y = tag ++ '>' :: rest
      simp only [List.nil_append] at hs
      exact script_not_prefix_mid tag htag2 '>' (Or.inr rfl) (rest ++ r) (by
        simpa using hs)
    · -- mid starts with a space: y = tag ++ ' ' :: (t ++ '>' :: rest)
      exact script_not_prefix_mid tag htag2 ' ' (Or.inl rfl) (t ++ '>' :: rest ++ r) (by
        simpa using hs)
  | cons d x' =>
    obtain ⟨rfl, hx⟩ := List.cons.inj hxy
    -- the marker at position |x'| inside tag ++ mid ++ '>' :: rest must be in rest
    have hnolt : ∀ c ∈ tag ++ mid ++ [ '>' ], c ≠ '<' := by
      intro c hc
      rcases List.mem_append.mp hc with hc | hc
      · rcases List.mem_append.mp hc with hc | hc
        · exact htaglt c hc
        · exact hmid c hc
      · simp at hc
        rw [hc]
        decide
    have hx2 : (tag ++ mid ++ [ '>' ]) ++ rest = x' ++ '<' :: y := by
      simpa using hx
    rcases List.append_eq_append_iff.mp hx2 with ⟨w, hw1, hw2⟩ | ⟨w, hw1, hw2⟩
    · exact hrest w y hw2 r hs
    · cases w with
      | nil =>
        simp only [List.nil_append] at hw2
        exact hrest [] y hw2.symm r hs
      | cons e w2 =>
        exfalso
        have : '<' ∈ tag ++ mid ++ [ '>' ] := by
          rw [hw1]
          rw [List.cons_append] at hw2
          obtain ⟨rfl, -⟩ := List.cons.inj hw2
          exact List.mem_append.mpr (Or.inr (List.mem_cons_self _ _))
        exact hnolt '<' this rfl

end Gfm
namespace Gfm

theorem escapeChar_no_lt (c : Char) : ∀ d ∈ escapeChar c, d ≠ '<' := by
  intro d hd
  unfold escapeChar at hd
  by_cases h1 : c = '&'
  · simp [h1, str] at hd
    rcases hd with rfl | rfl | rfl | rfl | rfl <;> decide
  · simp only [h1, if_neg, not_false_eq_true] at hd
    by_cases h2 : c = '<'
    · simp [h2, str] at hd
      rcases hd with rfl | rfl | rfl | rfl <;> decide
    · simp only [h2, if_neg, not_false_eq_true] at hd
      by_cases h3 : c = '>'
      · simp [h3, str] at hd
        rcases hd with rfl | rfl | rfl | rfl <;> decide
      · simp only [h3, if_neg, not_false_eq_true] at hd
        by_cases h4 : c = '"'
        · simp [h4, str] at hd
          rcases hd with rfl | rfl | rfl | rfl | rfl | rfl <;> decide
        · simp only [h4, if_neg, not_false_eq_true, List.mem_cons, List.not_mem_nil,
            or_false] at hd
          rw [hd]
          exact h2

theorem escapeHtml_no_lt (s : Str) : ∀ d ∈ escapeHtml s, d ≠ '<' := by
  induction s with
  | nil => intro d hd; cases hd
  | cons c cs ih =>
    intro d hd
    rcases List.mem_append.mp hd with hd | hd
    · exact escapeChar_no_lt c d hd
    · exact ih d hd

theorem serializeProps_no_lt (props : List (Str × PropVal))
    (hnames : ∀ p ∈ props, ∀ c ∈ p.1, c ≠ '<') :
    ∀ d ∈ serializeProps props, d ≠ '<' := by
  induction props with
  | nil => intro d hd; cases hd
  | cons p ps ih =>
    intro d hd
    show d ≠ '<'
    have hd' : d ∈ ' ' :: (p.1 ++ '=' :: '"' :: (escapeHtml (propValStr p.2) ++ '"' :: serializeProps ps)) := by
      simpa [serializeProps] using hd
    rcases List.mem_cons.mp hd' with rfl | hd'
    · decide
    rcases List.mem_append.mp hd' with hd' | hd'
    · exact hnames p (List.mem_cons_self p ps) d hd'
    rcases List.mem_cons.mp hd' with rfl | hd'
    · decide
    rcases List.mem_cons.mp hd' with rfl | hd'
    · decide
    rcases List.mem_append.mp hd' with hd' | hd'
    · exact escapeHtml_no_lt _ d hd'
    rcases List.mem_cons.mp hd' with rfl | hd'
    · decide
    · exact ih (fun q hq => hnames q (List.mem_cons_of_mem p hq)) d hd'

theorem serializeProps_shape (props : List (Str × PropVal)) :
    serializeProps props = [] ∨ ∃ t, serializeProps props = ' ' :: t := by
  cases props with
  | nil => exact Or.inl rfl
  | cons p ps => exact Or.inr ⟨_, rfl⟩

end Gfm
namespace Gfm

theorem nameSafe_no_lt (n : Str) (h : nameSafe n = true) : ∀ c ∈ n, c ≠ '<' := by
  intro c hc he
  subst he
  unfold nameSafe at h
  have h1 := (Bool.and_eq_true _ _ ▸ h).1
  simp [List.contains] at h1
  exact h1 hc

theorem tagSafe_no_lt (n : Str) (h : tagSafe n = true) : ∀ c ∈ n, c ≠ '<' := by
  intro c hc he
  subst he
  unfold tagSafe at h
  have h1 := (Bool.and_eq_true _ _ ▸ h).2
  simp [List.contains] at h1
  exact h1 hc

mutual
theorem serN_safe : ∀ h : Hast, outSafeN h = true → SafeStr (serializeNode h)
  | .text v, _ => safeStr_of_no_lt _ (escapeHtml_no_lt v)
  | .element tag props cs, hs => by
    unfold outSafeN at hs
    obtain ⟨h12, hcs⟩ := Bool.and_eq_true _ _ ▸ hs
    obtain ⟨htag, hprops⟩ := Bool.and_eq_true _ _ ▸ h12
    have hnames : ∀ p ∈ props, ∀ c ∈ p.1, c ≠ '<' := by
      intro p hp
      have hpall := List.all_eq_true.mp hprops p hp
      unfold propSafe at hpall
      exact nameSafe_no_lt p.1 (Bool.and_eq_true _ _ ▸ hpall).1
    simp only [serializeNode]
    rw [List.append_assoc]
    exact safeStr_open tag htag (serializeProps props)
      (serializeProps_no_lt props hnames) (serializeProps_shape props)
      (serializeL cs ++ '<' :: '/' :: (tag ++ [ '>' ]))
      (safeStr_append _ _ (serL_safe cs hcs) (safeStr_close tag (tagSafe_no_lt tag htag)))
theorem serL_safe : ∀ l : HastL, outSafeL l = true → SafeStr (serializeL l)
  | .nil, _ => safeStr_of_no_lt [] (by intro c hc; cases hc)
  | .cons h t, hs => by
    unfold outSafeL at hs
    obtain ⟨h1, h2⟩ := Bool.and_eq_true _ _ ▸ hs
    exact safeStr_append _ _ (serN_safe h h1) (serL_safe t h2)
end

end Gfm
namespace Gfm

theorem schemeOf_js (v : Str) (h : (str "javascript:").isPrefixOf v = true) :
    schemeOf v = some (str "javascript") := by
  obtain ⟨t, ht⟩ := List.isPrefixOf_iff_prefix.mp h
  rw [← ht]
  rfl

theorem schemeOf_vb (v : Str) (h : (str "vbscript:").isPrefixOf v = true) :
    schemeOf v = some (str "vbscript") := by
  obtain ⟨t, ht⟩ := List.isPrefixOf_iff_prefix.mp h
  rw [← ht]
  rfl

theorem ruleFor_mem (rules : List AttrRule) (n : Str) (r : AttrRule)
    (h : ruleFor rules n = some r) : r ∈ rules ∧ r.name = n := by
  unfold ruleFor at h
  refine ⟨List.mem_of_find?_eq_some h, ?_⟩
  have := List.find?_some h
  simpa using this

theorem getA_mem {α : Type} (m : List (Str × α)) (k : Str) (v : α)
    (h : getA m k = some v) : ∃ e ∈ m, e.2 = v := by
  unfold getA at h
  rcases Option.map_eq_some'.mp h with ⟨e, he, hv⟩
  exact ⟨e, List.mem_of_find?_eq_some he, hv⟩

theorem protocolOk_no_js (v : Str) (ps : List Str)
    (hjs : (str "javascript") ∉ ps) (hvb : (str "vbscript") ∉ ps)
    (hok : protocolOk v ps = true) :
    ((str "javascript:").isPrefixOf v = false ∧ (str "vbscript:").isPrefixOf v = false) := by
  constructor
  · cases hpf : (str "javascript:").isPrefixOf v
    · rfl
    · exfalso
      unfold protocolOk at hok
      rw [schemeOf_js v hpf] at hok
      simp [List.contains] at hok
      exact hjs hok
  · cases hpf : (str "vbscript:").isPrefixOf v
    · rfl
    · exfalso
      unfold protocolOk at hok
      rw [schemeOf_vb v hpf] at hok
      simp [List.contains] at hok
      exact hvb hok

end Gfm
namespace Gfm

theorem filterProp_safe (sc : Schema) (tag : Str) (p p' : Str × PropVal)
    (hRules : ∀ e ∈ sc.attributes, ∀ r ∈ e.2, nameSafe r.name = true ∧ ruleUrlOk r = true)
    (hHref : ∃ ps, getA sc.protocols (str "href") = some ps ∧
      (str "javascript") ∉ ps ∧ (str "vbscript") ∉ ps)
    (hSrc : ∃ ps, getA sc.protocols (str "src") = some ps ∧
      (str "javascript") ∉ ps ∧ (str "vbscript") ∉ ps)
    (h : filterProp sc tag p = some p') :
    propSafe p' = true := by
  unfold propSafe
  unfold filterProp at h
  cases hga : getA sc.attributes tag with
  | none =>
    rw [hga] at h
    simp [ruleFor] at h
  | some rules0 =>
    rw [hga] at h
    simp only [Option.getD_some] at h
    cases hr : ruleFor rules0 p.1 with
    | none => rw [hr] at h; cases h
    | some r =>
      rw [hr] at h
      obtain ⟨hmemr, hnamer⟩ := ruleFor_mem rules0 p.1 r hr
      obtain ⟨e, hme, he2⟩ := getA_mem sc.attributes tag rules0 hga
      have hre := hRules e hme r (he2 ▸ hmemr)
      cases r with
      | any n =>
        have hname : nameSafe p.1 = true := by
          have := hre.1
          rw [AttrRule.name] at this
          rw [← hnamer]
          exact this
        cases hp : getA sc.protocols p.1 with
        | none =>
          rw [hp] at h
          simp only [] at h
          obtain rfl := Option.some.inj h
          have hnh : ¬ (p.1 = str "href" ∨ p.1 = str "src") := by
            rintro (hcase | hcase) <;> rw [hcase] at hp
            · obtain ⟨ps, hps, -, -⟩ := hHref
              rw [hps] at hp; cases hp
            · obtain ⟨ps, hps, -, -⟩ := hSrc
              rw [hps] at hp; cases hp
          simp [hname, hnh]
        | some ps =>
          rw [hp] at h
          simp only [] at h
          have hpsjs : (p.1 = str "href" ∨ p.1 = str "src") →
              (str "javascript") ∉ ps ∧ (str "vbscript") ∉ ps := by
            rintro (hcase | hcase) <;> rw [hcase] at hp
            · obtain ⟨ps', hps', hjs, hvb⟩ := hHref
              rw [hps'] at hp
              obtain rfl := Option.some.inj hp
              exact ⟨hjs, hvb⟩
            · obtain ⟨ps', hps', hjs, hvb⟩ := hSrc
              rw [hps'] at hp
              obtain rfl := Option.some.inj hp
              exact ⟨hjs, hvb⟩
          cases hv : p.2 with
          | s v =>
            rw [hv] at h
            simp only [] at h
            by_cases hok : protocolOk v ps = true
            · rw [if_pos hok] at h
              obtain rfl := Option.some.inj h
              by_cases hurl : p.1 = str "href" ∨ p.1 = str "src"
              · obtain ⟨hjs, hvb⟩ := protocolOk_no_js v ps (hpsjs hurl).1 (hpsjs hurl).2 hok
                simp [hname, hurl, hv, hjs, hvb]
              · simp [hname, hurl]
            · rw [if_neg hok] at h; cases h
          | strs items =>
            rw [hv] at h
            simp only [] at h
            by_cases hok : items.all (fun v => protocolOk v ps) = true
            · rw [if_pos hok] at h
              obtain rfl := Option.some.inj h
              by_cases hurl : p.1 = str "href" ∨ p.1 = str "src"
              · have hall : items.all (fun v =>
                    !((str "javascript:").isPrefixOf v) && !((str "vbscript:").isPrefixOf v)) = true := by
                  rw [List.all_eq_true]
                  intro v hvm
                  have hokv := List.all_eq_true.mp hok v hvm
                  obtain ⟨hjs, hvb⟩ :=
                    protocolOk_no_js v ps (hpsjs hurl).1 (hpsjs hurl).2 hokv
                  simp [hjs, hvb]
                simp [hname, hurl, hv, hall]
              · simp [hname, hurl]
            · rw [if_neg hok] at h; cases h
          | n v =>
            rw [hv] at h
            simp only [] at h
            obtain rfl := Option.some.inj h
            by_cases hurl : p.1 = str "href" ∨ p.1 = str "src" <;> simp [hname, hurl, hv]
          | b v =>
            rw [hv] at h
            simp only [] at h
            obtain rfl := Option.some.inj h
            by_cases hurl : p.1 = str "href" ∨ p.1 = str "src" <;> simp [hname, hurl, hv]
      | withPats n pats =>
        have hname : nameSafe p.1 = true := by
          have := hre.1
          rw [AttrRule.name] at this
          rw [← hnamer]
          exact this
        have hnh : ¬ (p.1 = str "href" ∨ p.1 = str "src") := by
          have hro := hre.2
          rw [ruleUrlOk] at hro
          rw [AttrRule.name] at hnamer
          rw [hnamer] at hro
          intro hcase
          rcases hcase with hcase | hcase <;> simp [hcase] at hro
        cases hv : p.2 with
        | strs items =>
          rw [hv] at h
          simp only [] at h
          obtain rfl := Option.some.inj h
          simp [hname, hnh]
        | s v => rw [hv] at h; simp only [] at h; cases h
        | n v => rw [hv] at h; simp only [] at h; cases h
        | b v => rw [hv] at h; simp only [] at h; cases h

end Gfm

namespace Gfm

theorem outSafeL_append : ∀ a b : HastL, outSafeL a = true → outSafeL b = true →
    outSafeL (HastL.append a b) = true
  | .nil, b, _, hb => hb
  | .cons h t, b, ha, hb => by
    unfold outSafeL at ha
    obtain ⟨h1, h2⟩ := Bool.and_eq_true _ _ ▸ ha
    unfold HastL.append outSafeL
    rw [h1, outSafeL_append t b h2 hb]
    rfl

end Gfm
namespace Gfm

mutual
theorem sanN_safe : ∀ (sc : Schema) (n : Hast),
    (∀ t ∈ sc.tagNames, tagSafe t = true) →
    (∀ e ∈ sc.attributes, ∀ r ∈ e.2, nameSafe r.name = true ∧ ruleUrlOk r = true) →
    (∃ ps, getA sc.protocols (str "href") = some ps ∧
      (str "javascript") ∉ ps ∧ (str "vbscript") ∉ ps) →
    (∃ ps, getA sc.protocols (str "src") = some ps ∧
      (str "javascript") ∉ ps ∧ (str "vbscript") ∉ ps) →
    outSafeL (sanitizeNode sc n) = true
  | _sc, .text v, _, _, _, _ => by
    unfold sanitizeNode outSafeL outSafeN
    rfl
  | sc, .element tag props cs, hTags, hRules, hHref, hSrc => by
    have hcs := sanL_safe sc cs hTags hRules hHref hSrc
    unfold sanitizeNode
    by_cases hmem : tag ∈ sc.tagNames
    · rw [if_pos hmem]
      have htag : tagSafe tag = true := hTags tag hmem
      have hprops : (props.filterMap (filterProp sc tag)).all propSafe = true := by
        rw [List.all_eq_true]
        intro p hp
        obtain ⟨q, hq, hfq⟩ := List.mem_filterMap.mp hp
        exact filterProp_safe sc tag q p hRules hHref hSrc hfq
      unfold outSafeL outSafeN
      rw [htag, hprops, hcs]
      rfl
    · rw [if_neg hmem]
      by_cases hstrip : tag ∈ sc.strip
      · rw [if_pos hstrip]; rfl
      · rw [if_neg hstrip]; exact hcs
theorem sanL_safe : ∀ (sc : Schema) (l : HastL),
    (∀ t ∈ sc.tagNames, tagSafe t = true) →
    (∀ e ∈ sc.attributes, ∀ r ∈ e.2, nameSafe r.name = true ∧ ruleUrlOk r = true) →
    (∃ ps, getA sc.protocols (str "href") = some ps ∧
      (str "javascript") ∉ ps ∧ (str "vbscript") ∉ ps) →
    (∃ ps, getA sc.protocols (str "src") = some ps ∧
      (str "javascript") ∉ ps ∧ (str "vbscript") ∉ ps) →
    outSafeL (sanitizeL sc l) = true
  | _sc, .nil, _, _, _, _ => rfl
  | sc, .cons h t, hTags, hRules, hHref, hSrc =>
    outSafeL_append _ _ (sanN_safe sc h hTags hRules hHref hSrc)
      (sanL_safe sc t hTags hRules hHref hSrc)
end

end Gfm

namespace Gfm

theorem buildSchema_tagNames (opts : RenderOptions) :
    (buildSchema opts).tagNames =
      (if opts.allowIframes = some true
        then (defaultSchema.tagNames ++ [ str "svg", str "path" ]) ++ [ str "iframe" ]
        else defaultSchema.tagNames ++ [ str "svg", str "path" ]) ++
      (match opts.math with | some m => m.tagNames.getD [] | none => []) := by
  by_cases hif : opts.allowIframes = some true <;>
    cases hm : opts.math <;>
      simp [buildSchema, hif, hm, defaultSchema, str]

end Gfm

namespace Gfm

theorem buildSchema_protocols (opts : RenderOptions) :
    (buildSchema opts).protocols = defaultSchema.protocols := rfl

theorem bsHref (opts : RenderOptions) :
    ∃ ps, getA (buildSchema opts).protocols (str "href") = some ps ∧
      (str "javascript") ∉ ps ∧ (str "vbscript") ∉ ps := by
  refine ⟨[ str "http", str "https", str "mailto", str "tel" ], ?_, ?_, ?_⟩
  · rw [buildSchema_protocols]; decide
  · decide
  · decide

theorem bsSrc (opts : RenderOptions) :
    ∃ ps, getA (buildSchema opts).protocols (str "src") = some ps ∧
      (str "javascript") ∉ ps ∧ (str "vbscript") ∉ ps := by
  refine ⟨[ str "http", str "https" ], ?_, ?_, ?_⟩
  · rw [buildSchema_protocols]; decide
  · decide
  · decide

theorem bsTags (opts : RenderOptions) (hm : mathSafe opts.math = true) :
    ∀ t ∈ (buildSchema opts).tagNames, tagSafe t = true := by
  intro t ht
  rw [buildSchema_tagNames] at ht
  rcases List.mem_append.mp ht with h | h
  · by_cases hif : opts.allowIframes = some true
    · rw [if_pos hif] at h
      exact List.all_eq_true.mp (by decide) t h
    · rw [if_neg hif] at h
      exact List.all_eq_true.mp (by decide) t h
  · cases hmath : opts.math with
    | none => rw [hmath] at h; simp only [] at h; cases h
    | some m =>
      rw [hmath] at h
      simp only [] at h
      rw [hmath] at hm
      unfold mathSafe at hm
      have h1 := (Bool.and_eq_true _ _ ▸ (Bool.and_eq_true _ _ ▸ hm).1).1
      exact List.all_eq_true.mp h1 t h

end Gfm

namespace Gfm

theorem mem_setA {α : Type} (m : List (Str × α)) (k : Str) (v : α) (e : Str × α)
    (he : e ∈ setA m k v) : e ∈ m ∨ e.2 = v := by
  unfold setA at he
  by_cases hf : (m.find? (fun p => decide (p.1 = k))).isSome = true
  · rw [if_pos hf] at he
    obtain ⟨p, hp, hpe⟩ := List.mem_map.mp he
    by_cases hpk : p.1 = k
    · rw [if_pos hpk] at hpe
      right
      rw [← hpe]
    · rw [if_neg hpk] at hpe
      left
      rw [← hpe]
      exact hp
  · rw [if_neg hf] at he
    rcases List.mem_append.mp he with h | h
    · left; exact h
    · right
      rcases List.mem_cons.mp h with rfl | h
      · rfl
      · cases h

theorem mem_appendRules (m : List (Str × List AttrRule)) (k : Str)
    (extra : List AttrRule) (e : Str × List AttrRule) (he : e ∈ appendRules m k extra)
    (r : AttrRule) (hr : r ∈ e.2) :
    (∃ e', e' ∈ m ∧ r ∈ e'.2) ∨ r ∈ extra := by
  unfold appendRules at he
  rcases mem_setA _ _ _ _ he with h | h
  · left; exact ⟨e, h, hr⟩
  · rw [h] at hr
    rcases List.mem_append.mp hr with h2 | h2
    · cases hg : getA m k with
      | none => rw [hg] at h2; cases h2
      | some rs =>
        rw [hg] at h2
        simp only [Option.getD_some] at h2
        obtain ⟨e', he', he2⟩ := getA_mem m k rs hg
        left
        exact ⟨e', he', he2 ▸ h2⟩
    · right; exact h2

end Gfm

namespace Gfm

theorem rulesOk_setA (m : List (Str × List AttrRule)) (k : Str) (rs : List AttrRule)
    (hm : ∀ e ∈ m, ∀ r ∈ e.2, nameSafe r.name = true ∧ ruleUrlOk r = true)
    (hx : ∀ r ∈ rs, nameSafe r.name = true ∧ ruleUrlOk r = true) :
    ∀ e ∈ setA m k rs, ∀ r ∈ e.2, nameSafe r.name = true ∧ ruleUrlOk r = true := by
  intro e he r hr
  rcases mem_setA m k rs e he with h | h
  · exact hm e h r hr
  · exact hx r (h ▸ hr)

theorem rulesOk_appendRules (m : List (Str × List AttrRule)) (k : Str)
    (extra : List AttrRule)
    (hm : ∀ e ∈ m, ∀ r ∈ e.2, nameSafe r.name = true ∧ ruleUrlOk r = true)
    (hx : ∀ r ∈ extra, nameSafe r.name = true ∧ ruleUrlOk r = true) :
    ∀ e ∈ appendRules m k extra, ∀ r ∈ e.2,
      nameSafe r.name = true ∧ ruleUrlOk r = true := by
  intro e he r hr
  rcases mem_appendRules m k extra e he r hr with ⟨e', he', hre⟩ | h
  · exact hm e' he' r hre
  · exact hx r h

theorem rulesOk_foldl_any (l : List (Str × List Str))
    (m : List (Str × List AttrRule))
    (hm : ∀ e ∈ m, ∀ r ∈ e.2, nameSafe r.name = true ∧ ruleUrlOk r = true)
    (hl : ∀ p ∈ l, ∀ n ∈ p.2, nameSafe n = true) :
    ∀ e ∈ l.foldl (fun a p => appendRules a p.1 (p.2.map AttrRule.any)) m, ∀ r ∈ e.2,
      nameSafe r.name = true ∧ ruleUrlOk r = true := by
  induction l generalizing m with
  | nil => exact hm
  | cons p ps ih =>
    simp only [List.foldl_cons]
    apply ih
    · apply rulesOk_appendRules _ _ _ hm
      intro r hr
      obtain ⟨n, hn, rfl⟩ := List.mem_map.mp hr
      exact ⟨hl p (List.mem_cons_self p ps) n hn, rfl⟩
    · intro q hq n hn
      exact hl q (List.mem_cons_of_mem p hq) n hn

theorem rulesOk_foldl_const (l : List Str) (extra : List AttrRule)
    (m : List (Str × List AttrRule))
    (hm : ∀ e ∈ m, ∀ r ∈ e.2, nameSafe r.name = true ∧ ruleUrlOk r = true)
    (hx : ∀ r ∈ extra, nameSafe r.name = true ∧ ruleUrlOk r = true) :
    ∀ e ∈ l.foldl (fun a h => appendRules a h extra) m, ∀ r ∈ e.2,
      nameSafe r.name = true ∧ ruleUrlOk r = true := by
  induction l generalizing m with
  | nil => exact hm
  | cons p ps ih =>
    simp only [List.foldl_cons]
    exact ih _ (rulesOk_appendRules _ _ _ hm hx)

end Gfm

namespace Gfm

theorem bsRules (opts : RenderOptions) (hm : mathSafe opts.math = true) :
    ∀ e ∈ (buildSchema opts).attributes, ∀ r ∈ e.2,
      nameSafe r.name = true ∧ ruleUrlOk r = true := by
  unfold buildSchema
  simp only []
  cases hmath : opts.math with
  | none =>
    simp only []
    by_cases hif : opts.allowIframes = some true
    · rw [if_pos hif]
      apply rulesOk_setA
      · apply rulesOk_setA
        · apply rulesOk_setA
          · apply rulesOk_setA
            · apply rulesOk_appendRules
              · apply rulesOk_appendRules
                · apply rulesOk_appendRules
                  · apply rulesOk_appendRules
                    · apply rulesOk_appendRules
                      · apply rulesOk_appendRules
                        · apply rulesOk_foldl_const
                          · decide
                          · decide
                        · decide
                      · decide
                    · decide
                  · decide
                · decide
              · decide
            · decide
          · decide
        · decide
      · decide
    · rw [if_neg hif]
      apply rulesOk_setA
      · apply rulesOk_setA
        · apply rulesOk_setA
          · apply rulesOk_appendRules
            · apply rulesOk_appendRules
              · apply rulesOk_appendRules
                · apply rulesOk_appendRules
                  · apply rulesOk_appendRules
                    · apply rulesOk_appendRules
                      · apply rulesOk_foldl_const
                        · decide
                        · decide
                      · decide
                    · decide
                  · decide
                · decide
              · decide
            · decide
          · decide
        · decide
      · decide
  | some mb =>
    simp only []
    rw [hmath] at hm
    unfold mathSafe at hm
    have hAB := (Bool.and_eq_true _ _ ▸ hm).1
    have hC := (Bool.and_eq_true _ _ ▸ hm).2
    have hB := (Bool.and_eq_true _ _ ▸ hAB).2
    have hSpanPats : ∀ pats, ∀ r ∈ [ AttrRule.withPats (str "className") pats ],
        nameSafe r.name = true ∧ ruleUrlOk r = true := by
      intro pats r hr
      rcases List.mem_cons.mp hr with rfl | hcontra
      · exact ⟨rfl, rfl⟩
      · cases hcontra
    have hSpanAttrs : ∀ r ∈ (mb.spanAttributes.getD []).map AttrRule.any,
        nameSafe r.name = true ∧ ruleUrlOk r = true := by
      intro r hr
      obtain ⟨n, hn, rfl⟩ := List.mem_map.mp hr
      exact ⟨List.all_eq_true.mp hB n hn, rfl⟩
    apply rulesOk_foldl_any
    · by_cases hif : opts.allowIframes = some true
      · rw [if_pos hif]
        apply rulesOk_setA
        · apply rulesOk_setA
          · apply rulesOk_setA
            · apply rulesOk_setA
              · apply rulesOk_appendRules
                · apply rulesOk_appendRules
                  · apply rulesOk_appendRules
                    · apply rulesOk_appendRules
                      · apply rulesOk_appendRules
                        · apply rulesOk_appendRules
                          · apply rulesOk_appendRules
                            · apply rulesOk_foldl_const
                              · decide
                              · decide
                            · decide
                          · decide
                        · exact hSpanPats _
                      · exact hSpanAttrs
                    · decide
                  · decide
                · decide
              · decide
            · decide
          · decide
        · decide
      · rw [if_neg hif]
        apply rulesOk_setA
        · apply rulesOk_setA
          · apply rulesOk_setA
            · apply rulesOk_appendRules
              · apply rulesOk_appendRules
                · apply rulesOk_appendRules
                  · apply rulesOk_appendRules
                    · apply rulesOk_appendRules
                      · apply rulesOk_appendRules
                        · apply rulesOk_appendRules
                          · apply rulesOk_foldl_const
                            · decide
                            · decide
                          · decide
                        · decide
                      · exact hSpanPats _
                    · exact hSpanAttrs
                  · decide
                · decide
              · decide
            · decide
          · decide
        · decide
    · intro p hp n hn
      exact List.all_eq_true.mp (List.all_eq_true.mp hC p hp) n hn

end Gfm

namespace Gfm

mutual
theorem unwrapN_safe : ∀ n : Hast, outSafeN n = true → outSafeL (unwrapNode n) = true
  | .text v, _ => rfl
  | .element tag props cs, hs => by
    unfold outSafeN at hs
    obtain ⟨h12, hcs⟩ := Bool.and_eq_true _ _ ▸ hs
    have hcs' := unwrapL_safe cs hcs
    unfold unwrapNode
    by_cases hp : tag = str "p"
    · rw [if_pos hp]
      exact hcs'
    · rw [if_neg hp]
      unfold outSafeL outSafeN
      rw [h12, hcs']
      rfl
theorem unwrapL_safe : ∀ l : HastL, outSafeL l = true → outSafeL (unwrapL l) = true
  | .nil, _ => rfl
  | .cons h t, hs => by
    unfold outSafeL at hs
    obtain ⟨h1, h2⟩ := Bool.and_eq_true _ _ ▸ hs
    unfold unwrapL
    exact outSafeL_append _ _ (unwrapN_safe h h1) (unwrapL_safe t h2)
end

theorem renderedTree_safe (opts : RenderOptions) (t : HastL)
    (hdis : opts.disableHtmlSanitization ≠ some true)
    (hm : mathSafe opts.math = true) :
    outSafeL (renderedTree opts t) = true := by
  unfold renderedTree
  simp only []
  rw [if_neg hdis]
  have hs := fun l => sanL_safe (buildSchema opts) l (bsTags opts hm) (bsRules opts hm)
    (bsHref opts) (bsSrc opts)
  by_cases hin : opts.inline = some true
  · rw [if_pos hin]
    exact unwrapL_safe _ (hs _)
  · rw [if_neg hin]
    exact hs _

end Gfm

namespace Gfm

/-- C1 counterexample: the claim promises no `<script` in the output
regardless of the math configuration, but a math bundle that adds `script`
to the sanitizer's tag allow-list (a configuration in which sanitization is
NOT disabled) lets a script element through to the serialized HTML. -/
theorem C1_counterexample :
    ∃ (opts : RenderOptions) (t : HastL),
      opts.disableHtmlSanitization = none ∧
      (str "<script") <+: renderHast opts t := by
  refine ⟨{ math := some cexMathScript }, cexScriptTree, rfl, ?_⟩
  decide

/-- C1 (amended): for every document tree and every configuration in which
sanitization is not disabled AND whose math bundle's sanitization additions
are themselves safe (no `script`-opening tag, no `on*` or `<`-carrying
attribute name), the rendered HTML contains no `<script` substring and the
rendered tree carries no `on*` event-handler attribute and no
`javascript:`/`vbscript:` URI in an `href`/`src` attribute, regardless of
the other flags (`allowIframes`, `allowEmoji`, `lineNumbers`, `inline`);
and with sanitization disabled, rendering still totally produces a string. -/
theorem C1_sanitization_amended :
    (∀ (opts : RenderOptions) (t : HastL),
        opts.disableHtmlSanitization ≠ some true →
        mathSafe opts.math = true →
        outSafeL (renderedTree opts t) = true ∧
        ¬ ((str "<script") <:+: renderHast opts t)) ∧
    (∀ (opts : RenderOptions) (t : HastL), ∃ s, renderHast opts t = s) := by
  constructor
  · intro opts t hdis hm
    have hsafe := renderedTree_safe opts t hdis hm
    refine ⟨hsafe, ?_⟩
    exact safeStr_no_script _ (serL_safe _ hsafe)
  · intro opts t
    exact ⟨_, rfl⟩

/-- C1 witness: the amended theorem applied to the KaTeX-style math bundle
(whose additions are safe) and the script-bearing tree. -/
theorem C1_sanitization_amended_witness :
    ((({ math := some mathKatexA } : RenderOptions).disableHtmlSanitization ≠ some true) ∧
      mathSafe ({ math := some mathKatexA } : RenderOptions).math = true) ∧
    (outSafeL (renderedTree { math := some mathKatexA } cexScriptTree) = true ∧
      ¬ ((str "<script") <:+: renderHast { math := some mathKatexA } cexScriptTree)) :=
  ⟨⟨by decide, by decide⟩,
    C1_sanitization_amended.1 { math := some mathKatexA } cexScriptTree
      (by decide) (by decide)⟩

end Gfm
